import Mathlib

/-
Verification of the sales cleaning-and-aggregation pipeline
(src/analisis.py and src/graficos.py) against its specification.

The tabular data model is a shallow embedding of a pandas DataFrame:
a list of column names plus a list of rows, each row a list of cell
values.  A cell is a string, an exact rational number (standing for a
python float), a calendar date (encoded as yyyymmdd), or the missing
marker NA (NaN/NaT/None).  Percent arithmetic in the ABC analysis uses
an extended value type with NaN and signed infinities so that division
by a zero grand total behaves as IEEE floating point does in pandas.
-/

namespace SalesPipeline

/-- A cell value of a column: a string, a number (exact rational standing
for a python float), a date encoded as yyyymmdd, or the missing marker. -/
inductive Val where
  | vStr (s : String)
  | vNum (q : ℚ)
  | vDate (d : ℕ)
  | vNA
deriving DecidableEq, Repr

/-- An IEEE-style numeric value: finite rational, NaN, or a signed
infinity.  Used for the percent columns of the ABC analysis, where the
code divides by a grand total that may be zero. -/
inductive FVal where
  | fv (q : ℚ)
  | nan
  | inf
  | ninf
deriving DecidableEq, Repr

/-- IEEE-style addition: NaN is absorbing, inf + (-inf) = NaN. -/
def fadd : FVal → FVal → FVal
  | .fv a, .fv b => .fv (a + b)
  | .nan, _ => .nan
  | _, .nan => .nan
  | .inf, .ninf => .nan
  | .ninf, .inf => .nan
  | .inf, _ => .inf
  | _, .inf => .inf
  | .ninf, _ => .ninf
  | _, .ninf => .ninf

/-- Multiplication by the positive constant 100 (the `* 100` of the
percent computation): preserves NaN and the infinities. -/
def fmul100 : FVal → FVal
  | .fv a => .fv (a * 100)
  | .nan => .nan
  | .inf => .inf
  | .ninf => .ninf

/-- IEEE-style division of two finite values (`series / total` in the
code): division by zero yields NaN for 0/0 and a signed infinity
otherwise, exactly as numpy float division does. -/
def fdivQ (a b : ℚ) : FVal :=
  if b = 0 then (if a = 0 then .nan else (if 0 < a then .inf else .ninf)) else .fv (a / b)

/-- IEEE-style `<=` as python evaluates it on floats: any comparison
with NaN is false; -inf is below everything else; +inf only below
itself (`inf <= inf` is true). -/
def fle : FVal → FVal → Bool
  | .fv a, .fv b => decide (a ≤ b)
  | .nan, _ => false
  | _, .nan => false
  | .ninf, _ => true
  | _, .ninf => false
  | .inf, .inf => true
  | .inf, _ => false
  | _, .inf => true

/-- Whitespace for the purposes of `str.strip()`. -/
def isWS (c : Char) : Bool := c = ' ' || c = '\t' || c = '\n' || c = '\r'

/-- Drop leading whitespace characters. -/
def dropWS (l : List Char) : List Char := l.dropWhile isWS

/-- `str.strip()` on a character list: drop leading whitespace, then
drop trailing whitespace (via reversal). -/
def trimChars (l : List Char) : List Char := (dropWS (dropWS l).reverse).reverse

/-- `str.strip()` on a string. -/
def stripStr (s : String) : String := (trimChars s.toList).asString

/-- Numeric value of a digit list (most significant first). -/
def natOfDigits (l : List Char) : ℕ := l.foldl (fun n c => n * 10 + (c.toNat - 48)) 0

/-- Parse an unsigned decimal numeral, optionally with a fractional
part, as python float conversion accepts ("12", "12.5", ".5", "12.").
Anything else (including the string "nan") yields none, which the
coercing callers turn into the missing marker — observably the same as
pandas, where "nan" parses to NaN. -/
def parseUnsignedQ (l : List Char) : Option ℚ :=
  match l.splitOn '.' with
  | [ip] => if ip.all Char.isDigit ∧ ip ≠ [] then some (natOfDigits ip) else none
  | [ip, fp] =>
      if (ip ++ fp).all Char.isDigit ∧ ip ++ fp ≠ [] then
        some ((natOfDigits ip : ℚ) + (natOfDigits fp : ℚ) / (10 : ℚ) ^ fp.length)
      else none
  | _ => none

/-- Parse a signed decimal numeral as `pd.to_numeric` accepts on
strings (modelled grammar: optional sign, digits, optional fraction). -/
def parseNumQ (s : String) : Option ℚ :=
  match s.toList with
  | '-' :: rest => (parseUnsignedQ rest).map (fun q => -q)
  | '+' :: rest => parseUnsignedQ rest
  | l => parseUnsignedQ l

/-- `pd.to_numeric(errors="coerce")` on one cell: numbers pass through,
strings are parsed (unparseable becomes NA), NA stays NA.  A date cell
is modelled as its epoch-style integer encoding. -/
def toNumeric : Val → Val
  | .vStr s => (parseNumQ s).elim Val.vNA Val.vNum
  | .vNum q => .vNum q
  | .vDate d => .vNum d
  | .vNA => .vNA

/-- Split a character list on a separator character. -/
def splitOnChar (sep : Char) (l : List Char) : List (List Char) := l.splitOn sep

/-- Parse "a/b/c" into three numeric components. -/
def threeParts (s : String) : Option (ℕ × ℕ × ℕ) :=
  match (splitOnChar '/' s.toList).map (fun p =>
      if p.all Char.isDigit ∧ p ≠ [] then some (natOfDigits p) else none) with
  | [some a, some b, some c] => some (a, b, c)
  | _ => none

/-- Encode a calendar date as yyyymmdd. -/
def encDate (y m d : ℕ) : ℕ := y * 10000 + m * 100 + d

/-- Month-first date parsing ("M/D/Y"), the `pd.to_datetime` default
used by `analyze_top4_daily`.  The real parser accepts more formats;
the slash format suffices for the claims, which only need that some
strings parse and others do not. -/
def parseDateMDY (s : String) : Option ℕ :=
  match threeParts s with
  | some (m, d, y) =>
      if 1 ≤ m ∧ m ≤ 12 ∧ 1 ≤ d ∧ d ≤ 31 then some (encDate y m d) else none
  | none => none

/-- Day-first date parsing ("D/M/Y"), matching the
`pd.to_datetime(..., dayfirst=True)` call in graficos.py. -/
def parseDateDMY (s : String) : Option ℕ :=
  match threeParts s with
  | some (d, m, y) =>
      if 1 ≤ m ∧ m ≤ 12 ∧ 1 ≤ d ∧ d ≤ 31 then some (encDate y m d) else none
  | none => none

/-- `pd.to_datetime(errors="coerce")` on one cell: dates pass through,
NA stays NaT, unparseable strings become NaT, and a number converts
without error (epoch-style timestamp, modelled as the epoch date). -/
def toDatetimeCoerce : Val → Val
  | .vStr s => (parseDateMDY s).elim Val.vNA Val.vDate
  | .vDate d => .vDate d
  | .vNum _ => .vDate 19700101
  | .vNA => .vNA

/-- Whether strict `pd.to_datetime` (no errors="coerce", as in
graficos.py line 13) accepts the cell without raising: every value is
fine except an unparseable string. -/
def strictParseOK : Val → Bool
  | .vStr s => (parseDateDMY s).isSome
  | _ => true

/-- Strict day-first `pd.to_datetime` on one cell, on the assumption
that `strictParseOK` holds (otherwise the surrounding stage raises). -/
def toDatetimeStrict : Val → Val
  | .vStr s => (parseDateDMY s).elim Val.vNA Val.vDate
  | .vDate d => .vDate d
  | .vNum _ => .vDate 19700101
  | .vNA => .vNA

/-- Month component of an encoded date. -/
def monthOf (d : ℕ) : ℕ := d / 100 % 100

/-- `.dt.month` on one cell: a date yields its month as a number, NaT
yields NaN. -/
def monthCell : Val → Val
  | .vDate d => .vNum (monthOf d)
  | _ => .vNA

/-- Is the cell a string? (Used for the object-dtype test: a pandas
column has object dtype exactly when it holds python objects, i.e.
strings in this pipeline.) -/
def Val.isStr : Val → Bool
  | .vStr _ => true
  | _ => false

/-- Is the cell a number or the missing marker (a float64 column)? -/
def Val.isNumOrNA : Val → Bool
  | .vNum _ => true
  | .vNA => true
  | _ => false

/-- `str(value)` as `astype(str)` computes it elementwise.  Crucially,
the missing marker stringifies to "nan" — this is what pandas
`astype(str)` does to NaN and is the root of the product-code bug. -/
def valToPyStr : Val → String
  | .vStr s => s
  | .vNum q => toString q
  | .vDate d => toString d
  | .vNA => "nan"

/-- One cell of the text-normalization step: stringify, then strip. -/
def trimCell (v : Val) : Val := .vStr (stripStr (valToPyStr v))

/-- `qty * price` elementwise: a missing operand yields a missing
result (NaN propagates through float multiplication). -/
def numMul : Val → Val → Val
  | .vNum a, .vNum b => .vNum (a * b)
  | _, _ => .vNA

/-- Numeric reading of a cell for group sums: pandas `sum()` skips NaN,
so non-numeric cells contribute zero. -/
def numCell : Val → ℚ
  | .vNum q => q
  | _ => 0

-- ---------- DataFrame ----------

/-- The tabular dataset: named columns and positional rows. -/
structure DataFrame where
  cols : List String
  rows : List (List Val)
deriving DecidableEq, Repr

/-- Well-formedness: rows match the header width and column names are
unique (always true of a real pandas frame). -/
def DataFrame.WF (df : DataFrame) : Prop :=
  (∀ r ∈ df.rows, r.length = df.cols.length) ∧ df.cols.Nodup

instance (df : DataFrame) : Decidable df.WF := by
  unfold DataFrame.WF; infer_instance

/-- Cell of a row at a column position (missing when out of range). -/
def cellAt (r : List Val) (i : ℕ) : Val := r.getD i Val.vNA

/-- Position of a column name in the header. -/
def colIdx (df : DataFrame) (c : String) : ℕ := df.cols.indexOf c

/-- A named column as the list of its cells. -/
def getCol (df : DataFrame) (c : String) : List Val :=
  df.rows.map (fun r => cellAt r (colIdx df c))

/-- Apply an index-dependent cell function across a row, positions
counted from `i`. -/
def mapCellsIdx (f : ℕ → Val → Val) : ℕ → List Val → List Val
  | _, [] => []
  | i, v :: vs => f i v :: mapCellsIdx f (i + 1) vs

/-- Worker for `dedupFirst`: keep elements not seen before. -/
def dedupFirstAux {α : Type} [DecidableEq α] (seen : List α) : List α → List α
  | [] => []
  | x :: xs => if x ∈ seen then dedupFirstAux seen xs else x :: dedupFirstAux (x :: seen) xs

/-- `drop_duplicates()` keeping first occurrences, on any element type. -/
def dedupFirst {α : Type} [DecidableEq α] (l : List α) : List α := dedupFirstAux [] l

/-- Column names of the pipeline. -/
def COL_PRODUCT : String := "PRODUCTCODE"

def COL_LINE : String := "PRODUCTLINE"

def COL_QTY : String := "QUANTITYORDERED"

def COL_PRICE : String := "PRICEEACH"

def COL_SALES : String := "SALES"

def COL_ORDERDATE : String := "ORDERDATE"

def COL_MONTH : String := "MONTH_ID"

/-- `ensure_columns`: raise a configuration error naming the missing
required columns, succeed otherwise. -/
def ensure_columns (df : DataFrame) (required : List String) : Except String Unit :=
  match required.filter (fun c => c ∉ df.cols) with
  | [] => .ok ()
  | missing => .error ("Faltan columnas requeridas: " ++ toString missing)

-- ---------- Cleaner ----------

/-- Whether column `i` of the frame has object dtype: some cell of it
is a string. -/
def isObjectCol (df : DataFrame) (i : ℕ) : Bool :=
  df.rows.any (fun r => (cellAt r i).isStr)

/-- Step 1 of `clean_data`: `df.drop_duplicates()`. -/
def dedupStep (df : DataFrame) : DataFrame :=
  ⟨df.cols, dedupFirst df.rows⟩

/-- Step 2 of `clean_data`: for every object-dtype column,
`df[c] = df[c].astype(str).str.strip()`. -/
def trimStep (df : DataFrame) : DataFrame :=
  ⟨df.cols, df.rows.map (mapCellsIdx (fun i v => if isObjectCol df i then trimCell v else v) 0)⟩

/-- Positions of the numeric-coercion targets (QUANTITYORDERED,
PRICEEACH, SALES) that are present in the header. -/
def numTargets (cols : List String) : List ℕ :=
  ([COL_QTY, COL_PRICE, COL_SALES].filter (fun c => c ∈ cols)).map (fun c => cols.indexOf c)

/-- Step 3 of `clean_data`: `pd.to_numeric(..., errors="coerce")` on
each present numeric target column. -/
def coerceStep (df : DataFrame) : DataFrame :=
  ⟨df.cols, df.rows.map (mapCellsIdx (fun i v => if i ∈ numTargets df.cols then toNumeric v else v) 0)⟩

/-- Step 4 of `clean_data`: derive SALES = QUANTITYORDERED * PRICEEACH
when SALES is absent and both operands are present. -/
def deriveStep (df : DataFrame) : DataFrame :=
  if COL_SALES ∉ df.cols ∧ COL_QTY ∈ df.cols ∧ COL_PRICE ∈ df.cols then
    ⟨df.cols ++ [COL_SALES],
     df.rows.map (fun r => r ++ [numMul (cellAt r (colIdx df COL_QTY)) (cellAt r (colIdx df COL_PRICE))])⟩
  else df

/-- `df.dropna(subset=[c])`. -/
def dropnaCol (df : DataFrame) (c : String) : DataFrame :=
  ⟨df.cols, df.rows.filter (fun r => cellAt r (colIdx df c) ≠ Val.vNA)⟩

/-- Keep rows whose quantity cell is a number strictly greater than 0
(`df[df[COL_QTY].notna() & (df[COL_QTY] > 0)]`). -/
def qtyPos (v : Val) : Bool :=
  match v with
  | .vNum q => decide (0 < q)
  | _ => false

/-- The quantity filter of step 5. -/
def qtyFilterStep (df : DataFrame) : DataFrame :=
  ⟨df.cols, df.rows.filter (fun r => qtyPos (cellAt r (colIdx df COL_QTY)))⟩

/-- Result of `clean_data`: the cleaned frame plus the two removal
counts the function logs. -/
structure CleanResult where
  df : DataFrame
  dupRemoved : ℕ
  invalidRemoved : ℕ
deriving DecidableEq, Repr

/-- Steps 1-4 of `clean_data`: de-duplication, text normalization,
numeric coercion, SALES derivation. -/
def cleanPre (df0 : DataFrame) : DataFrame :=
  deriveStep (coerceStep (trimStep (dedupStep df0)))

/-- Step 5 of `clean_data`: drop rows with missing product code, then,
when the quantity column exists, rows without a positive quantity. -/
def cleanFiltered (df0 : DataFrame) : DataFrame :=
  if COL_QTY ∈ (dropnaCol (cleanPre df0) COL_PRODUCT).cols then
    qtyFilterStep (dropnaCol (cleanPre df0) COL_PRODUCT)
  else dropnaCol (cleanPre df0) COL_PRODUCT

/-- `clean_data`: de-duplication, text normalization, numeric coercion,
SALES derivation, then invalid-row filtering, reporting the two
removal counts the function logs.  The `dropna(subset=[PRODUCTCODE])`
raises a missing-column KeyError when PRODUCTCODE is absent — the one
aborting condition. -/
def clean_data (df0 : DataFrame) : Except String CleanResult :=
  if COL_PRODUCT ∈ (cleanPre df0).cols then
    .ok ⟨cleanFiltered df0, df0.rows.length - (dedupStep df0).rows.length,
         (cleanPre df0).rows.length - (cleanFiltered df0).rows.length⟩
  else .error "KeyError: PRODUCTCODE"

-- ---------- Sorting (groupby key order and sort_values) ----------

/-- Constructor rank used to order mixed-type group keys (strings
before numbers before dates before NA; after cleaning only strings
occur, so the cross-type branch is never exercised by the pipeline). -/
def valRank : Val → ℕ
  | .vStr _ => 0
  | .vNum _ => 1
  | .vDate _ => 2
  | .vNA => 3

/-- Lexicographic strict order on character lists (string sort order,
as pandas sorts group keys). -/
def charsLT : List Char → List Char → Bool
  | [], [] => false
  | [], _ :: _ => true
  | _ :: _, [] => false
  | a :: as, b :: bs => if a < b then true else (if b < a then false else charsLT as bs)

/-- Lexicographic strict order on strings. -/
def strLT (a b : String) : Bool := charsLT a.toList b.toList

/-- Strict order on cell values: within a constructor the payload
order, across constructors the rank order. -/
def valLT : Val → Val → Bool
  | .vStr a, .vStr b => strLT a b
  | .vNum a, .vNum b => decide (a < b)
  | .vDate a, .vDate b => decide (a < b)
  | a, b => decide (valRank a < valRank b)

/-- Insert into an ascending list (used for the sorted group keys that
`groupby(..., sort=True)` produces). -/
def insertAscVal (x : Val) : List Val → List Val
  | [] => [x]
  | y :: ys => if valLT x y then x :: y :: ys else y :: insertAscVal x ys

/-- Sort cell values ascending (insertion sort). -/
def sortAscVal (l : List Val) : List Val := l.foldr insertAscVal []

/-- Stable insert for the descending-by-value sort of `sort_values
(ascending=False)`: an element goes before the first element whose
value is not larger, so earlier elements stay first among ties.  numpy
uses insertion sort below 16 elements, so this matches the engine on
every dataset the claims exercise. -/
def insertDescQ (x : Val × ℚ) : List (Val × ℚ) → List (Val × ℚ)
  | [] => [x]
  | y :: ys => if y.2 ≤ x.2 then x :: y :: ys else y :: insertDescQ x ys

/-- Stable descending sort by the summed value. -/
def sortDescQ (l : List (Val × ℚ)) : List (Val × ℚ) := l.foldr insertDescQ []

-- ---------- Aggregator: grouped sums ----------

/-- `df.groupby(keyCol)[valCol].sum()`: group keys are the distinct
non-NA cells of the key column in ascending order (pandas sorts group
keys by default and drops NA keys); each group value is the sum of the
numeric cells of the value column over the rows of the group (pandas
`sum` skips NaN, so missing contributes zero). -/
def groupSumBy (df : DataFrame) (keyCol valCol : String) : List (Val × ℚ) :=
  (sortAscVal (dedupFirst ((df.rows.map (fun r => cellAt r (colIdx df keyCol))).filter
      (fun v => v ≠ Val.vNA)))).map
    (fun k => (k, ((df.rows.filter (fun r => cellAt r (colIdx df keyCol) = k)).map
      (fun r => numCell (cellAt r (colIdx df valCol)))).sum))

/-- `groupby(PRODUCTCODE)[col].sum().sort_values(ascending=False).head n`. -/
def topList (df : DataFrame) (valCol : String) (n : ℕ) : List (Val × ℚ) :=
  (sortDescQ (groupSumBy df COL_PRODUCT valCol)).take n

/-- The dictionary `top_products` returns: a ranking per metric column
that is present. -/
structure TopResults where
  qty : Option (List (Val × ℚ))
  sales : Option (List (Val × ℚ))
deriving DecidableEq, Repr

/-- `top_products`: requires PRODUCTCODE, then computes the top-n
ranking for each of QUANTITYORDERED and SALES that is present. -/
def top_products (df : DataFrame) (n : ℕ) : Except String TopResults :=
  match ensure_columns df [COL_PRODUCT] with
  | .error e => .error e
  | .ok _ =>
      .ok ⟨if COL_QTY ∈ df.cols then some (topList df COL_QTY n) else none,
           if COL_SALES ∈ df.cols then some (topList df COL_SALES n) else none⟩

/-- Total of the SALES column over the whole frame (`df[COL_SALES].sum()`,
NaN skipped). -/
def totalSalesDF (df : DataFrame) : ℚ :=
  ((getCol df COL_SALES).map numCell).sum

-- ---------- Aggregator: daily top-4 ----------

/-- Strict order on (date, product) group keys. -/
def pairLT (a b : ℕ × Val) : Bool :=
  decide (a.1 < b.1) || (decide (a.1 = b.1) && valLT a.2 b.2)

/-- Insertion sort for (date, product) keys. -/
def insertAscPair (x : ℕ × Val) : List (ℕ × Val) → List (ℕ × Val)
  | [] => [x]
  | y :: ys => if pairLT x y then x :: y :: ys else y :: insertAscPair x ys

/-- Sort (date, product) keys ascending. -/
def sortAscPair (l : List (ℕ × Val)) : List (ℕ × Val) := l.foldr insertAscPair []

/-- Date component of a (coerced) ORDERDATE cell; rows reaching the
grouping step have a genuine date here. -/
def dateOf : Val → ℕ
  | .vDate d => d
  | _ => 0

/-- In-place effect of `analyze_top4_daily` on its argument:
`df[COL_ORDERDATE] = pd.to_datetime(df[COL_ORDERDATE], errors="coerce")`
overwrites the ORDERDATE column of the caller's frame. -/
def top4Mutate (df : DataFrame) : DataFrame :=
  ⟨df.cols, df.rows.map (mapCellsIdx
    (fun i v => if i = colIdx df COL_ORDERDATE then toDatetimeCoerce v else v) 0)⟩

/-- The (date, product) → summed-sales table written to
ventas_diarias_top4.csv. -/
def dailyTableOf (df : DataFrame) (top4 : List Val) : List ((ℕ × Val) × ℚ) :=
  let d := top4Mutate df
  let sub := d.rows.filter (fun r =>
    decide (cellAt r (colIdx d COL_PRODUCT) ∈ top4) && decide (cellAt r (colIdx d COL_ORDERDATE) ≠ Val.vNA))
  (sortAscPair (dedupFirst (sub.map (fun r =>
      (dateOf (cellAt r (colIdx d COL_ORDERDATE)), cellAt r (colIdx d COL_PRODUCT)))))).map
    (fun k => (k, ((sub.filter (fun r =>
        cellAt r (colIdx d COL_ORDERDATE) = Val.vDate k.1 ∧ cellAt r (colIdx d COL_PRODUCT) = k.2)).map
      (fun r => numCell (cellAt r (colIdx d COL_SALES)))).sum))

/-- `analyze_top4_daily`.  Returns the post-call state of the caller's
frame (the function mutates ORDERDATE in place on the run path), the
log lines it emits, and the daily table artifact if one is written.
Skip paths: a missing or short (< 4) ranking returns silently; a
missing ORDERDATE logs the skip.  On the run path a missing PRODUCTCODE
or SALES column raises (KeyError from the filter / groupby). -/
def analyze_top4_daily (df : DataFrame) (topSales : Option (List (Val × ℚ))) :
    Except String (DataFrame × List String × Option (List ((ℕ × Val) × ℚ))) :=
  match topSales with
  | none => .ok (df, [], none)
  | some ts =>
      if ts.length < 4 then .ok (df, [], none)
      else if COL_ORDERDATE ∉ df.cols then
        .ok (df, ["ORDERDATE no existe; se omite análisis diario de top 4."], none)
      else if COL_PRODUCT ∈ df.cols ∧ COL_SALES ∈ df.cols then
        .ok (top4Mutate df, ["Guardado CSV → ventas_diarias_top4.csv"],
             some (dailyTableOf df ((ts.take 4).map (fun kv => kv.1))))
      else .error "KeyError"

-- ---------- Aggregator: ABC classification ----------

/-- One row of the ABC table: product, summed sales, percent of total,
cumulative percent, category. -/
structure AbcRow where
  product : Val
  sales : ℚ
  pct : FVal
  cum : FVal
  cat : String
deriving DecidableEq, Repr

/-- `Series.cumsum()` with pandas default skipna: a NaN entry stays NaN
in the output and does not update the running accumulator; every other
entry (finite or infinite) updates it. -/
def cumListFrom (acc : FVal) : List FVal → List FVal
  | [] => []
  | p :: ps =>
      match p with
      | .nan => .nan :: cumListFrom acc ps
      | q => fadd acc q :: cumListFrom (fadd acc q) ps

/-- The threshold rule `clasificar_abc` evaluated on a cumulative
percent (python float semantics: a NaN compares false, so NaN ends in
C; -inf would compare true at 80 and land in A). -/
def clasificar (c : FVal) : String :=
  if fle c (.fv 80) then "A" else (if fle c (.fv 95) then "B" else "C")

/-- Zip the sorted group sums with their percent and cumulative-percent
columns into table rows. -/
def abcRows : List (Val × ℚ) → List FVal → List FVal → List AbcRow
  | (k, v) :: g, p :: ps, c :: cs => ⟨k, v, p, c, clasificar c⟩ :: abcRows g ps cs
  | _, _, _ => []

/-- The per-product sales sums of the ABC analysis, sorted descending
(`groupby(PRODUCTCODE)[SALES].sum().sort_values(ascending=False)`). -/
def abcSorted (df : DataFrame) : List (Val × ℚ) :=
  sortDescQ (groupSumBy df COL_PRODUCT COL_SALES)

/-- The grand total `ventas_por_producto[COL_SALES].sum()`. -/
def abcTotal (df : DataFrame) : ℚ :=
  ((abcSorted df).map (fun kv => kv.2)).sum

/-- The percent-of-total column: IEEE division of each group sum by
the grand total, times 100 (a zero grand total yields NaN or signed
infinities, never an error). -/
def abcPcts (df : DataFrame) : List FVal :=
  (abcSorted df).map (fun kv => fmul100 (fdivQ kv.2 (abcTotal df)))

/-- The cumulative-percent column: pandas cumsum of the percents. -/
def abcCums (df : DataFrame) : List FVal := cumListFrom (.fv 0) (abcPcts df)

/-- The ABC table: sorted sums with percent, cumulative percent, and
the A/B/C label. -/
def abcOf (df : DataFrame) : List AbcRow :=
  abcRows (abcSorted df) (abcPcts df) (abcCums df)

/-- `analisis_abc`: the required-column check runs first and aborts the
stage before any output; otherwise the table is produced. -/
def analisis_abc (df : DataFrame) : Except String (List AbcRow) :=
  match ensure_columns df [COL_PRODUCT, COL_SALES] with
  | .error e => .error e
  | .ok _ => .ok (abcOf df)

-- ---------- Monthly aggregate (graficos.cantidad_unidades_por_mes) ----------

/-- The fixed product-line allow-list of the monthly chart. -/
def lineasInteres : List String :=
  ["Vintage Cars", "Classic Cars", "Trucks and Buses", "Motorcycles"]

/-- The frame after line 13 of graficos.py: ORDERDATE overwritten in
place with strictly parsed (day-first) dates. -/
def cantParsed (df : DataFrame) : DataFrame :=
  ⟨df.cols, df.rows.map (mapCellsIdx
    (fun i v => if i = colIdx df COL_ORDERDATE then toDatetimeStrict v else v) 0)⟩

/-- In-place effect of `cantidad_unidades_por_mes` on its argument:
ORDERDATE is overwritten with strictly parsed (day-first) dates and a
MONTH_ID column is added (or overwritten when already present),
holding the month of the parsed date (NaN for NaT). -/
def cantMutate (df : DataFrame) : DataFrame :=
  if COL_MONTH ∈ df.cols then
    ⟨df.cols, (cantParsed df).rows.map (fun r =>
      r.set (colIdx df COL_MONTH) (monthCell (cellAt r (colIdx df COL_ORDERDATE))))⟩
  else
    ⟨df.cols ++ [COL_MONTH], (cantParsed df).rows.map (fun r =>
      r ++ [monthCell (cellAt r (colIdx df COL_ORDERDATE))])⟩

/-- Strict order on (month, line) group keys. -/
def mlLT (a b : Val × Val) : Bool :=
  valLT a.1 b.1 || (decide (a.1 = b.1) && valLT a.2 b.2)

/-- Insertion sort for (month, line) keys. -/
def insertAscML (x : Val × Val) : List (Val × Val) → List (Val × Val)
  | [] => [x]
  | y :: ys => if mlLT x y then x :: y :: ys else y :: insertAscML x ys

/-- Sort (month, line) keys ascending. -/
def sortAscML (l : List (Val × Val)) : List (Val × Val) := l.foldr insertAscML []

/-- The grouped (month, line) → summed-quantity table of the monthly
chart, computed on the filtered copy (`df_filtrado`): allow-listed
lines only, quantity coerced then NaN rows dropped, NA month keys
dropped by groupby. -/
def monthlyTableOf (d : DataFrame) : List ((Val × Val) × ℚ) :=
  let sub0 := d.rows.filter (fun r =>
    match cellAt r (colIdx d COL_LINE) with
    | .vStr s => decide (s ∈ lineasInteres)
    | _ => false)
  let sub := (sub0.map (mapCellsIdx
      (fun i v => if i = colIdx d COL_QTY then toNumeric v else v) 0)).filter
    (fun r => cellAt r (colIdx d COL_QTY) ≠ Val.vNA)
  let keyed := sub.filter (fun r =>
    cellAt r (colIdx d COL_MONTH) ≠ Val.vNA ∧ cellAt r (colIdx d COL_LINE) ≠ Val.vNA)
  (sortAscML (dedupFirst (keyed.map (fun r =>
      (cellAt r (colIdx d COL_MONTH), cellAt r (colIdx d COL_LINE)))))).map
    (fun k => (k, ((keyed.filter (fun r =>
        cellAt r (colIdx d COL_MONTH) = k.1 ∧ cellAt r (colIdx d COL_LINE) = k.2)).map
      (fun r => numCell (cellAt r (colIdx d COL_QTY)))).sum))

/-- `cantidad_unidades_por_mes`.  The date conversion on line 13 of
graficos.py has no errors="coerce", so an unparseable ORDERDATE string
raises; a missing ORDERDATE, PRODUCTLINE or QUANTITYORDERED column
raises a KeyError.  On success the caller's frame has ORDERDATE
overwritten and MONTH_ID added, and the grouped monthly table is
computed from the filtered copy. -/
def cantidad_unidades_por_mes (df : DataFrame) :
    Except String (DataFrame × List ((Val × Val) × ℚ)) :=
  if COL_ORDERDATE ∉ df.cols then .error "KeyError: ORDERDATE"
  else if ¬ (∀ v ∈ getCol df COL_ORDERDATE, strictParseOK v = true) then
    .error "ValueError: unparseable ORDERDATE"
  else if COL_LINE ∉ (cantMutate df).cols then .error "KeyError: PRODUCTLINE"
  else if COL_QTY ∉ (cantMutate df).cols then .error "KeyError: QUANTITYORDERED"
  else .ok (cantMutate df, monthlyTableOf (cantMutate df))

-- ---------- Concrete datasets used to settle the claims ----------

/-- Two rows, object-typed PRODUCTCODE, the second missing. -/
def dfC1 : DataFrame := ⟨[COL_PRODUCT], [[.vStr "A"], [.vNA]]⟩

/-- One row with an unparseable ORDERDATE string. -/
def dfC2 : DataFrame :=
  ⟨[COL_PRODUCT, COL_SALES, COL_ORDERDATE], [[.vStr "P1", .vNum 1, .vStr "bad"]]⟩

/-- The post-call state of dfC2 after `analyze_top4_daily`: the bad
date has been coerced to NaT in place. -/
def dfC2mut : DataFrame :=
  ⟨[COL_PRODUCT, COL_SALES, COL_ORDERDATE], [[.vStr "P1", .vNum 1, .vNA]]⟩

/-- A four-entry sales ranking (so the daily analysis runs). -/
def tsC2 : List (Val × ℚ) := [(.vStr "a", 4), (.vStr "b", 3), (.vStr "c", 2), (.vStr "d", 1)]

/-- Product "B" appears before product "A"; both sum to 5. -/
def dfC3 : DataFrame :=
  ⟨[COL_PRODUCT, COL_QTY], [[.vStr "B", .vNum 5], [.vStr "A", .vNum 5]]⟩

/-- One product whose only sales value is missing: its group sum is 0,
so the grand total is 0. -/
def dfC4 : DataFrame := ⟨[COL_PRODUCT, COL_SALES], [[.vStr "P1", .vNA]]⟩

/-- Distinct rows "a " and "a" that trimming makes equal. -/
def dfC5 : DataFrame := ⟨[COL_PRODUCT], [[.vStr "a "], [.vStr "a"]]⟩

/-- dfC5 after one clean: two identical rows. -/
def dfC5once : DataFrame := ⟨[COL_PRODUCT], [[.vStr "a"], [.vStr "a"]]⟩

/-- dfC5 after a second clean: the duplicate created by trimming is
now removed. -/
def dfC5twice : DataFrame := ⟨[COL_PRODUCT], [[.vStr "a"]]⟩

/-- Two products with sales 10 and -5: grand total 5, so percents are
200 and -100 and the cumulative column decreases; the top-1 sales sum
(10) exceeds the dataset total (5). -/
def dfNeg : DataFrame :=
  ⟨[COL_PRODUCT, COL_SALES], [[.vStr "P1", .vNum 10], [.vStr "P2", .vNum (-5)]]⟩

/-- Two products with positive sales 10 and 5: grand total 15, a
well-behaved ABC input. -/
def dfPos : DataFrame :=
  ⟨[COL_PRODUCT, COL_SALES], [[.vStr "P1", .vNum 10], [.vStr "P2", .vNum 5]]⟩

/-- One allow-listed row whose ORDERDATE string does not parse. -/
def dfC8 : DataFrame :=
  ⟨[COL_LINE, COL_QTY, COL_ORDERDATE], [[.vStr "Vintage Cars", .vNum 1, .vStr "notadate"]]⟩

/-- A frame with an ORDERDATE column (so only the short-ranking
precondition fails). -/
def dfC9 : DataFrame :=
  ⟨[COL_PRODUCT, COL_SALES, COL_ORDERDATE], [[.vStr "P1", .vNum 1, .vStr "1/2/2003"]]⟩

/-- A two-entry ranking: fewer than the 4 required entries. -/
def tsC9 : List (Val × ℚ) := [(.vStr "a", 5), (.vStr "b", 3)]

-- ---------- Statements of the claims under test ----------

/-- Index of the first row of the frame whose product cell is `k`. -/
def firstApp (df : DataFrame) (k : Val) : ℕ :=
  df.rows.findIdx (fun r => decide (cellAt r (colIdx df COL_PRODUCT) = k))

/-- Claim C3 as stated, at one frame, metric and n: any two entries of
the top-n list with equal sums appear in the order in which their
product codes first appear in the frame. -/
def tieBreakFirstAppearance (df : DataFrame) (valCol : String) (n : ℕ) : Prop :=
  ∀ j < (topList df valCol n).length, ∀ i < j,
    ((topList df valCol n).getD i (Val.vNA, 0)).2 = ((topList df valCol n).getD j (Val.vNA, 0)).2 →
    firstApp df ((topList df valCol n).getD i (Val.vNA, 0)).1 <
      firstApp df ((topList df valCol n).getD j (Val.vNA, 0)).1

instance (df : DataFrame) (valCol : String) (n : ℕ) :
    Decidable (tieBreakFirstAppearance df valCol n) := by
  unfold tieBreakFirstAppearance; infer_instance

/-- The skip preconditions of the daily top-4 analysis fail: the
ranking is absent or shorter than 4, or ORDERDATE is missing. -/
def skipPrecondFails (df : DataFrame) (ts : Option (List (Val × ℚ))) : Prop :=
  ts = none ∨ (∃ l, ts = some l ∧ l.length < 4) ∨ COL_ORDERDATE ∉ df.cols

/-- Claim C9 as stated, at one frame and ranking: when the
preconditions fail the stage returns without raising, produces no
daily table, and emits a log line explaining the skip. -/
def c9Claim (df : DataFrame) (ts : Option (List (Val × ℚ))) : Prop :=
  skipPrecondFails df ts →
    ∃ d msgs, analyze_top4_daily df ts = .ok (d, msgs, none) ∧ msgs ≠ []

/-- Rank of a category label in the order A before B before C (used to
state that no A row follows a B or C row and no B row follows a C row). -/
def catRank (s : String) : ℕ := if s = "A" then 0 else (if s = "B" then 1 else 2)

/-- Rank of a finite cumulative percent under the threshold rule. -/
def qrank (q : ℚ) : ℕ := if q ≤ 80 then 0 else (if q ≤ 95 then 1 else 2)

/-- Running sums of a rational list starting from `a` (the shape the
cumulative column takes when every percent is finite). -/
def runningFrom (a : ℚ) : List ℚ → List ℚ
  | [] => []
  | x :: xs => (a + x) :: runningFrom (a + x) xs

/-- Every sales cell is a number or missing, and contributes a
non-negative amount (the situation after cleaning a dataset with
non-negative prices). -/
def SalesClean (df : DataFrame) : Prop :=
  ∀ v ∈ getCol df COL_SALES, v.isNumOrNA = true ∧ 0 ≤ numCell v

instance (df : DataFrame) : Decidable (SalesClean df) := by
  unfold SalesClean; infer_instance

-- DEFS_END

-- ---------- Claim theorems ----------

/-- C1.  The spec and the code's own filtering step intend to drop
every row with missing product_code, but the text-normalization step
(`astype(str)`) stringifies NaN to "nan" in object columns first, so
the `dropna(subset=[PRODUCTCODE])` finds nothing to drop: on dfC1,
whose second row has a missing product code (second conjunct), the
cleaned output still has both rows, the missing value now the literal
string "nan", and the logged removed count is 0. -/
theorem c1_missing_product_survives :
    clean_data dfC1 = .ok ⟨⟨[COL_PRODUCT], [[.vStr "A"], [.vStr "nan"]]⟩, 0, 0⟩ ∧
    cellAt (dfC1.rows.getD 1 []) (colIdx dfC1 COL_PRODUCT) = Val.vNA := by
  constructor
  · rfl
  · rfl

/-- C2 counterexample.  `analyze_top4_daily` mutates the dataset it
receives: on dfC2 (run path: four-entry ranking, ORDERDATE present)
the post-call state of the caller's frame has the ORDERDATE cell
coerced in place, so it differs from the frame that was passed in. -/
theorem c2_counterexample :
    analyze_top4_daily dfC2 (some tsC2) =
      .ok (dfC2mut, ["Guardado CSV → ventas_diarias_top4.csv"], some []) ∧
    dfC2mut ≠ dfC2 := by
  constructor
  · rfl
  · decide

/-- C3 counterexample.  The tie-break of `top_products` is not
first-appearance order: on dfC3 (cleaned: cleaning it is the identity,
first conjunct) products "B" (first row) and "A" (second row) both sum
to 5, yet the top-2 list orders "A" before "B", because groupby sorts
the group keys alphabetically before the descending value sort. -/
theorem c3_counterexample :
    clean_data dfC3 = .ok ⟨dfC3, 0, 0⟩ ∧ ¬ tieBreakFirstAppearance dfC3 COL_QTY 2 := by
  have hg : groupSumBy dfC3 COL_PRODUCT COL_QTY =
      [(Val.vStr "A", (5 : ℚ) + 0), (Val.vStr "B", (5 : ℚ) + 0)] := rfl
  have hg2 : groupSumBy dfC3 COL_PRODUCT COL_QTY =
      [(Val.vStr "A", (5 : ℚ)), (Val.vStr "B", (5 : ℚ))] := by rw [hg]; norm_num
  have ht : topList dfC3 COL_QTY 2 = [(Val.vStr "A", 5), (Val.vStr "B", 5)] := by
    rw [topList, hg2]; norm_num [sortDescQ, insertDescQ]
  refine ⟨rfl, ?_⟩
  intro h
  have h2 := h 1 (by rw [ht]; decide) 0 (by decide)
  rw [ht] at h2
  exact absurd (h2 rfl) (by decide)

/-- C4 counterexample.  With a zero grand total (single product whose
only sales value is missing, so its group sum is 0) the percent and
cumulative columns are NaN — the 0/0 of pandas float division — not
zero as the claim states; the stage still succeeds. -/
theorem c4_counterexample :
    abcTotal dfC4 = 0 ∧ analisis_abc dfC4 = .ok (abcOf dfC4) ∧
    ¬ (∀ row ∈ abcOf dfC4, row.pct = .fv 0 ∧ row.cum = .fv 0) := by
  have hg : abcSorted dfC4 = [(Val.vStr "P1", (0 : ℚ) + 0)] := rfl
  have hg2 : abcSorted dfC4 = [(Val.vStr "P1", (0 : ℚ))] := by rw [hg]; norm_num
  have ht : abcTotal dfC4 = 0 := by rw [abcTotal, hg2]; norm_num
  have hp : abcPcts dfC4 = [.nan] := by
    rw [abcPcts, hg2, ht]; norm_num [fdivQ, fmul100]
  have hc : abcCums dfC4 = [.nan] := by
    rw [abcCums, hp]; norm_num [cumListFrom]
  have htable : abcOf dfC4 = [⟨Val.vStr "P1", 0, .nan, .nan, "C"⟩] := by
    rw [abcOf, hg2, hp, hc]
    norm_num [abcRows, clasificar, fle]
  refine ⟨ht, rfl, ?_⟩
  intro h
  have := (h ⟨Val.vStr "P1", 0, .nan, .nan, "C"⟩ (by rw [htable]; exact List.mem_singleton_self _)).1
  exact absurd this (by decide)

/-- C5 counterexample.  Cleaning is not idempotent: dfC5 has distinct
rows "a " and "a", one clean trims both to "a" (removing nothing), and
a second clean removes the duplicate that trimming created, so
clean(clean(dfC5)) has fewer rows than clean(dfC5). -/
theorem c5_counterexample :
    clean_data dfC5 = .ok ⟨dfC5once, 0, 0⟩ ∧
    clean_data dfC5once = .ok ⟨dfC5twice, 1, 0⟩ ∧ dfC5twice ≠ dfC5once := by
  refine ⟨rfl, rfl, by decide⟩

/-- C6 counterexample.  The cumulative percent column of the ABC table
is not non-decreasing in general: on dfNeg the sums are 10 and -5, the
grand total is 5, and the cumulative column is [200, 100], which
decreases. -/
theorem c6_counterexample :
    ¬ List.Pairwise (fun a b => fle a.cum b.cum = true) (abcOf dfNeg) := by
  have hg : groupSumBy dfNeg COL_PRODUCT COL_SALES =
      [(Val.vStr "P1", (10 : ℚ) + 0), (Val.vStr "P2", (-5 : ℚ) + 0)] := rfl
  have hg2 : groupSumBy dfNeg COL_PRODUCT COL_SALES =
      [(Val.vStr "P1", (10 : ℚ)), (Val.vStr "P2", (-5 : ℚ))] := by rw [hg]; norm_num
  have hs : abcSorted dfNeg = [(Val.vStr "P1", (10 : ℚ)), (Val.vStr "P2", (-5 : ℚ))] := by
    rw [abcSorted, hg2]; norm_num [sortDescQ, insertDescQ]
  have ht : abcTotal dfNeg = 5 := by rw [abcTotal, hs]; norm_num
  have hp : abcPcts dfNeg = [.fv 200, .fv (-100)] := by
    rw [abcPcts, hs, ht]; norm_num [fdivQ, fmul100]
  have hc : abcCums dfNeg = [.fv 200, .fv 100] := by
    rw [abcCums, hp]; norm_num [cumListFrom, fadd]
  have htable : abcOf dfNeg =
      [⟨Val.vStr "P1", 10, .fv 200, .fv 200, "C"⟩,
       ⟨Val.vStr "P2", -5, .fv (-100), .fv 100, "C"⟩] := by
    rw [abcOf, hs, hp, hc]
    norm_num [abcRows, clasificar, fle]
  rw [htable]
  intro h
  have := List.rel_of_pairwise_cons h (List.mem_singleton_self _)
  exact absurd this (by decide)

/-- C7 counterexample.  Sum conservation fails with a negative group
sum: dfNeg is cleaned (cleaning it is the identity, first conjunct),
yet the top-1 sales value 10 exceeds the dataset total 5. -/
theorem c7_counterexample :
    clean_data dfNeg = .ok ⟨dfNeg, 0, 0⟩ ∧
    ¬ ((topList dfNeg COL_SALES 1).map (fun kv => kv.2)).sum ≤ totalSalesDF dfNeg := by
  have hg : groupSumBy dfNeg COL_PRODUCT COL_SALES =
      [(Val.vStr "P1", (10 : ℚ) + 0), (Val.vStr "P2", (-5 : ℚ) + 0)] := rfl
  have hg2 : groupSumBy dfNeg COL_PRODUCT COL_SALES =
      [(Val.vStr "P1", (10 : ℚ)), (Val.vStr "P2", (-5 : ℚ))] := by rw [hg]; norm_num
  have ht : topList dfNeg COL_SALES 1 = [(Val.vStr "P1", 10)] := by
    rw [topList, hg2]; norm_num [sortDescQ, insertDescQ]
  have htot : totalSalesDF dfNeg = 5 := by
    have : totalSalesDF dfNeg = (10 : ℚ) + (-5 + 0) := rfl
    rw [this]; norm_num
  refine ⟨rfl, ?_⟩
  rw [ht, htot]
  norm_num

/-- C8 counterexample.  The date coercion of the monthly aggregate
(graficos.py line 13) has no errors="coerce", so it raises on an
unparseable ORDERDATE value even though every required column is
present — contradicting the claim that no coercion step in any stage
raises because of an unparseable value. -/
theorem c8_counterexample :
    COL_ORDERDATE ∈ dfC8.cols ∧ COL_LINE ∈ dfC8.cols ∧ COL_QTY ∈ dfC8.cols ∧
    cantidad_unidades_por_mes dfC8 = .error "ValueError: unparseable ORDERDATE" := by
  refine ⟨by decide, by decide, by decide, rfl⟩

/-- C9 counterexample.  When the ranking has fewer than 4 entries the
stage skips silently: on dfC9 with the two-entry ranking tsC9 it
returns with an empty log list, so no log line explaining the skip is
emitted, contrary to the claim. -/
theorem c9_counterexample : ¬ c9Claim dfC9 (some tsC9) := by
  intro h
  obtain ⟨d, msgs, heq, hne⟩ := h (Or.inr (Or.inl ⟨tsC9, rfl, by decide⟩))
  have hcomp : analyze_top4_daily dfC9 (some tsC9) = .ok (dfC9, [], none) := rfl
  rw [hcomp] at heq
  have : ([] : List String) = msgs := congrArg (fun x => x.2.1) (Except.ok.inj heq)
  exact hne this.symm

/-- C10.  `analisis_abc` raises its missing-column configuration error
exactly when PRODUCTCODE or SALES is absent (the `ensure_columns` call
is its first action, before any output is produced); with both columns
present it succeeds. -/
theorem c10_abc_missing_column_iff (df : DataFrame) :
    (analisis_abc df).isOk = true ↔ (COL_PRODUCT ∈ df.cols ∧ COL_SALES ∈ df.cols) := by
  unfold analisis_abc ensure_columns
  rcases h : [COL_PRODUCT, COL_SALES].filter (fun c => c ∉ df.cols) with _ | ⟨a, l⟩
  · simp only [Except.isOk, Except.toBool]
    rw [List.filter_eq_nil_iff] at h
    simp only [true_iff]
    constructor
    · have := h COL_PRODUCT (by decide)
      simpa using this
    · have := h COL_SALES (by decide)
      simpa using this
  · simp only [Except.isOk, Except.toBool]
    constructor
    · intro hfalse
      exact absurd hfalse (by simp)
    · intro ⟨hp, hs⟩
      have : [COL_PRODUCT, COL_SALES].filter (fun c => c ∉ df.cols) = [] := by
        rw [List.filter_eq_nil_iff]
        intro c hc
        simp only [List.mem_cons, List.mem_singleton, List.not_mem_nil, or_false] at hc
        rcases hc with h1 | h2
        · subst h1; simpa using hp
        · subst h2; simpa using hs
      rw [this] at h
      exact absurd h (by simp)

-- ---------- Helper lemmas: column preservation ----------

theorem dedupStep_cols (df : DataFrame) : (dedupStep df).cols = df.cols := rfl

theorem trimStep_cols (df : DataFrame) : (trimStep df).cols = df.cols := rfl

theorem coerceStep_cols (df : DataFrame) : (coerceStep df).cols = df.cols := rfl

theorem deriveStep_cols (df : DataFrame) :
    (deriveStep df).cols = df.cols ∨ (deriveStep df).cols = df.cols ++ [COL_SALES] := by
  unfold deriveStep
  split
  · exact Or.inr rfl
  · exact Or.inl rfl

theorem deriveStep_cols_mem (df : DataFrame) (c : String) (h : c ∈ df.cols) :
    c ∈ (deriveStep df).cols := by
  rcases deriveStep_cols df with h2 | h2 <;> rw [h2]
  · exact h
  · exact List.mem_append_left _ h

theorem cantMutate_cols (df : DataFrame) :
    (cantMutate df).cols = df.cols ∨ (cantMutate df).cols = df.cols ++ [COL_MONTH] := by
  unfold cantMutate
  split
  · exact Or.inl rfl
  · exact Or.inr rfl

theorem cantMutate_cols_mem (df : DataFrame) (c : String) (h : c ∈ df.cols) :
    c ∈ (cantMutate df).cols := by
  rcases cantMutate_cols df with h2 | h2 <;> rw [h2]
  · exact h
  · exact List.mem_append_left _ h

/-- C9 amended.  When the preconditions of the daily top-4 analysis
fail, the stage returns without raising and produces no daily table; a
missing or short ranking skips silently (no log line, contrary to the
original claim), while a missing ORDERDATE logs the skip. -/
theorem c9_amended (df : DataFrame) (ts : Option (List (Val × ℚ))) :
    (ts = none → analyze_top4_daily df ts = .ok (df, [], none)) ∧
    (∀ l, ts = some l → l.length < 4 → analyze_top4_daily df ts = .ok (df, [], none)) ∧
    (∀ l, ts = some l → 4 ≤ l.length → COL_ORDERDATE ∉ df.cols →
      analyze_top4_daily df ts =
        .ok (df, ["ORDERDATE no existe; se omite análisis diario de top 4."], none)) := by
  refine ⟨?_, ?_, ?_⟩
  · intro h; subst h; rfl
  · intro l h hlen; subst h
    unfold analyze_top4_daily
    simp only [if_pos hlen]
  · intro l h hlen hod; subst h
    unfold analyze_top4_daily
    simp only [if_neg (show ¬ l.length < 4 by omega), if_pos hod]

/-- Witness for C9 amended: the short-ranking skip on dfC9 and the
missing-ORDERDATE skip on dfC1. -/
theorem c9_witness :
    analyze_top4_daily dfC9 (some tsC9) = .ok (dfC9, [], none) ∧
    analyze_top4_daily dfC1 (some tsC2) =
      .ok (dfC1, ["ORDERDATE no existe; se omite análisis diario de top 4."], none) :=
  ⟨(c9_amended dfC9 (some tsC9)).2.1 tsC9 rfl (by decide),
   (c9_amended dfC1 (some tsC2)).2.2 tsC2 rfl (by decide) (by decide)⟩

/-- C8 amended.  Value-level parse failures are recovered everywhere in
analisis.py: cleaning succeeds whenever PRODUCTCODE exists (unparseable
numerics become missing) and the daily top-4 stage succeeds whenever
PRODUCTCODE and SALES exist (unparseable dates become missing).  But
the monthly aggregate in graficos.py parses dates without
errors="coerce", so with all its required columns present it succeeds
exactly when every ORDERDATE value is parseable. -/
theorem c8_amended :
    (∀ df : DataFrame, COL_PRODUCT ∈ df.cols → (clean_data df).isOk = true) ∧
    (∀ (df : DataFrame) (ts : Option (List (Val × ℚ))),
      COL_PRODUCT ∈ df.cols → COL_SALES ∈ df.cols → (analyze_top4_daily df ts).isOk = true) ∧
    (∀ df : DataFrame, COL_ORDERDATE ∈ df.cols → COL_LINE ∈ df.cols → COL_QTY ∈ df.cols →
      ((cantidad_unidades_por_mes df).isOk = true ↔
        ∀ v ∈ getCol df COL_ORDERDATE, strictParseOK v = true)) := by
  refine ⟨?_, ?_, ?_⟩
  · intro df hp
    unfold clean_data
    have : COL_PRODUCT ∈ (cleanPre df).cols := deriveStep_cols_mem _ _ hp
    rw [if_pos this]
    rfl
  · intro df ts hp hs
    unfold analyze_top4_daily
    rcases ts with _ | l
    · rfl
    · by_cases h4 : l.length < 4
      · simp only [if_pos h4]; rfl
      · simp only [if_neg h4]
        by_cases hod : COL_ORDERDATE ∉ df.cols
        · rw [if_pos hod]; rfl
        · rw [if_neg hod, if_pos ⟨hp, hs⟩]; rfl
  · intro df hod hl hq
    unfold cantidad_unidades_por_mes
    rw [if_neg (by simpa using hod)]
    by_cases hparse : ∀ v ∈ getCol df COL_ORDERDATE, strictParseOK v = true
    · rw [if_neg (by simpa using hparse),
          if_neg (by simpa using cantMutate_cols_mem df COL_LINE hl),
          if_neg (by simpa using cantMutate_cols_mem df COL_QTY hq)]
      exact iff_of_true rfl hparse
    · rw [if_pos (by simpa using hparse)]
      constructor
      · intro hfalse; exact absurd hfalse (by simp [Except.isOk, Except.toBool])
      · intro hall; exact absurd hall hparse

/-- Witness for C8 amended: clean on dfC1, the daily stage on dfC2,
and the monthly aggregate on dfC8 (whose bad date makes the right side
of the iff false). -/
theorem c8_witness :
    (clean_data dfC1).isOk = true ∧
    (analyze_top4_daily dfC2 (some tsC2)).isOk = true ∧
    ((cantidad_unidades_por_mes dfC8).isOk = true ↔
      ∀ v ∈ getCol dfC8 COL_ORDERDATE, strictParseOK v = true) :=
  ⟨c8_amended.1 dfC1 (by decide),
   c8_amended.2.1 dfC2 (some tsC2) (by decide) (by decide),
   c8_amended.2.2 dfC8 (by decide) (by decide) (by decide)⟩

-- ---------- Helper lemmas: cells and column indices ----------

theorem mapCellsIdx_length (f : ℕ → Val → Val) (k : ℕ) (r : List Val) :
    (mapCellsIdx f k r).length = r.length := by
  induction r generalizing k with
  | nil => rfl
  | cons v vs ih => simp [mapCellsIdx, ih]

theorem cellAt_mapCellsIdx (f : ℕ → Val → Val) (k : ℕ) (r : List Val) (i : ℕ) :
    cellAt (mapCellsIdx f k r) i =
      if i < r.length then f (k + i) (cellAt r i) else Val.vNA := by
  induction r generalizing k i with
  | nil => simp [mapCellsIdx, cellAt]
  | cons v vs ih =>
      cases i with
      | zero => simp [mapCellsIdx, cellAt]
      | succ n =>
          have := ih (k + 1) n
          simp only [mapCellsIdx, cellAt, List.getD_cons_succ] at this ⊢
          rw [this]
          have harith : k + 1 + n = k + (n + 1) := by omega
          rw [harith]
          simp [Nat.succ_lt_succ_iff]

theorem colIdx_ne_of_ne (df : DataFrame) (c c' : String) (hc : c ∈ df.cols)
    (hc' : c' ∈ df.cols) (hne : c ≠ c') : colIdx df c ≠ colIdx df c' := by
  intro h
  apply hne
  have h1 : df.cols.get ⟨colIdx df c, List.indexOf_lt_length.2 hc⟩ = c := List.indexOf_get _
  have h2 : df.cols.get ⟨colIdx df c', List.indexOf_lt_length.2 hc'⟩ = c' := List.indexOf_get _
  rw [← h1, ← h2]
  congr 1
  exact Fin.ext h

theorem colIdx_lt_of_mem (df : DataFrame) (c : String) (h : c ∈ df.cols) :
    colIdx df c < df.cols.length := List.indexOf_lt_length.2 h

theorem colIdx_eq_length_of_not_mem (df : DataFrame) (c : String) (h : c ∉ df.cols) :
    colIdx df c = df.cols.length := List.indexOf_eq_length.2 h

/-- The daily top-4 mutation only touches ORDERDATE: every other
column reads back unchanged. -/
theorem top4Mutate_getCol (df : DataFrame) (c : String) (hwf : df.WF)
    (hod : COL_ORDERDATE ∈ df.cols) (hc : c ≠ COL_ORDERDATE) :
    getCol (top4Mutate df) c = getCol df c := by
  have hcols : (top4Mutate df).cols = df.cols := rfl
  unfold getCol
  rw [show (top4Mutate df).rows =
      df.rows.map (mapCellsIdx
        (fun i v => if i = colIdx df COL_ORDERDATE then toDatetimeCoerce v else v) 0) from rfl]
  rw [List.map_map]
  apply List.map_congr_left
  intro r hr
  have hlen : r.length = df.cols.length := hwf.1 r hr
  show cellAt (mapCellsIdx _ 0 r) (colIdx (top4Mutate df) c) = cellAt r (colIdx df c)
  have hci : colIdx (top4Mutate df) c = colIdx df c := by rw [colIdx, hcols]; rfl
  rw [hci, cellAt_mapCellsIdx]
  by_cases hlt : colIdx df c < r.length
  · rw [if_pos hlt]
    have hmem : c ∈ df.cols := by
      by_contra habs
      rw [colIdx_eq_length_of_not_mem df c habs, ← hlen] at hlt
      omega
    have hne := colIdx_ne_of_ne df c COL_ORDERDATE hmem hod hc
    simp only [Nat.zero_add, if_neg hne]
  · rw [if_neg hlt]
    rw [cellAt, List.getD_eq_default]
    omega

/-- The monthly-aggregate mutation only touches ORDERDATE and the
appended MONTH_ID: every pre-existing column other than ORDERDATE
reads back unchanged. -/
theorem cantMutate_getCol (df : DataFrame) (c : String) (hwf : df.WF)
    (hod : COL_ORDERDATE ∈ df.cols) (hm : COL_MONTH ∉ df.cols)
    (hmem : c ∈ df.cols) (hc : c ≠ COL_ORDERDATE) :
    getCol (cantMutate df) c = getCol df c := by
  have hcols : (cantMutate df).cols = df.cols ++ [COL_MONTH] := by
    unfold cantMutate
    rw [if_neg hm]
  unfold getCol
  have hci : colIdx (cantMutate df) c = colIdx df c := by
    rw [colIdx, colIdx, hcols]
    exact List.indexOf_append_of_mem hmem
  rw [hci]
  rw [show (cantMutate df).rows = (cantParsed df).rows.map (fun r =>
      r ++ [monthCell (cellAt r (colIdx df COL_ORDERDATE))]) by
    unfold cantMutate
    rw [if_neg hm]]
  rw [show (cantParsed df).rows = df.rows.map (mapCellsIdx
      (fun i v => if i = colIdx df COL_ORDERDATE then toDatetimeStrict v else v) 0) from rfl]
  rw [List.map_map, List.map_map]
  apply List.map_congr_left
  intro r hr
  have hlen : r.length = df.cols.length := hwf.1 r hr
  have hjlt : colIdx df c < r.length := by
    rw [hlen]
    exact colIdx_lt_of_mem df c hmem
  show cellAt (mapCellsIdx _ 0 r ++ [_]) (colIdx df c) = cellAt r (colIdx df c)
  rw [cellAt, List.getD_append _ _ _ _ (by rw [mapCellsIdx_length]; exact hjlt)]
  rw [← cellAt, cellAt_mapCellsIdx, if_pos hjlt]
  have hne := colIdx_ne_of_ne df c COL_ORDERDATE hmem hod hc
  simp only [Nat.zero_add, if_neg hne]

/-- C2 amended.  The cleaning, top-N and ABC stages are pure by
construction, but the two date-handling stages mutate the frame they
receive: `analyze_top4_daily` overwrites the ORDERDATE column of its
argument in place (run path) and `cantidad_unidades_por_mes`
overwrites ORDERDATE and appends a MONTH_ID column.  Every other
column of the argument is left unchanged. -/
theorem c2_amended :
    (∀ (df : DataFrame) (ts : List (Val × ℚ)), df.WF → 4 ≤ ts.length →
      COL_ORDERDATE ∈ df.cols → COL_PRODUCT ∈ df.cols → COL_SALES ∈ df.cols →
      analyze_top4_daily df (some ts) =
        .ok (top4Mutate df, ["Guardado CSV → ventas_diarias_top4.csv"],
             some (dailyTableOf df ((ts.take 4).map (fun kv => kv.1)))) ∧
      (top4Mutate df).cols = df.cols ∧
      (∀ c, c ≠ COL_ORDERDATE → getCol (top4Mutate df) c = getCol df c)) ∧
    (∀ df : DataFrame, df.WF → COL_ORDERDATE ∈ df.cols → COL_MONTH ∉ df.cols →
      (cantMutate df).cols = df.cols ++ [COL_MONTH] ∧
      (∀ c, c ∈ df.cols → c ≠ COL_ORDERDATE → getCol (cantMutate df) c = getCol df c)) := by
  constructor
  · intro df ts hwf hlen hod hp hs
    refine ⟨?_, rfl, ?_⟩
    · unfold analyze_top4_daily
      simp only [if_neg (show ¬ ts.length < 4 by omega),
        if_neg (show ¬ COL_ORDERDATE ∉ df.cols by simpa using hod),
        if_pos (show COL_PRODUCT ∈ df.cols ∧ COL_SALES ∈ df.cols from ⟨hp, hs⟩)]
    · intro c hc
      exact top4Mutate_getCol df c hwf hod hc
  · intro df hwf hod hm
    refine ⟨?_, ?_⟩
    · unfold cantMutate
      rw [if_neg hm]
    · intro c hmem hc
      exact cantMutate_getCol df c hwf hod hm hmem hc

/-- Witness for C2 amended, at dfC2 with the four-entry ranking. -/
theorem c2_witness :
    analyze_top4_daily dfC2 (some tsC2) =
      .ok (top4Mutate dfC2, ["Guardado CSV → ventas_diarias_top4.csv"],
           some (dailyTableOf dfC2 ((tsC2.take 4).map (fun kv => kv.1)))) ∧
    getCol (top4Mutate dfC2) COL_PRODUCT = getCol dfC2 COL_PRODUCT ∧
    (cantMutate dfC2).cols = dfC2.cols ++ [COL_MONTH] :=
  ⟨((c2_amended.1 dfC2 tsC2 (by decide) (by decide) (by decide) (by decide) (by decide)).1),
   ((c2_amended.1 dfC2 tsC2 (by decide) (by decide) (by decide) (by decide) (by decide)).2.2
      COL_PRODUCT (by decide)),
   ((c2_amended.2 dfC2 (by decide) (by decide) (by decide)).1)⟩

-- ---------- Helper lemmas: the ABC table under a zero grand total ----------

theorem list_sum_nonpos (l : List ℚ) (h : ∀ a ∈ l, a ≤ 0) : l.sum ≤ 0 := by
  induction l with
  | nil => simp
  | cons x xs ih =>
      rw [List.sum_cons]
      have h1 := h x (List.mem_cons_self _ _)
      have h2 := ih (fun a ha => h a (List.mem_cons_of_mem _ ha))
      linarith

theorem sum_neg_of_nonpos_of_mem (l : List ℚ) (h : ∀ a ∈ l, a ≤ 0)
    (y : ℚ) (hy : y ∈ l) (hyneg : y < 0) : l.sum < 0 := by
  induction l with
  | nil => cases hy
  | cons x xs ih =>
      rw [List.sum_cons]
      rcases List.mem_cons.1 hy with h1 | h1
      · subst h1
        have hxs : xs.sum ≤ 0 := list_sum_nonpos _ (fun a ha => h a (List.mem_cons_of_mem _ ha))
        linarith
      · have hx : x ≤ 0 := h x (List.mem_cons_self _ _)
        have := ih (fun a ha => h a (List.mem_cons_of_mem _ ha)) h1
        linarith

/-- A percent entry computed against a zero total is NaN or a signed
infinity, and never a finite value. -/
theorem pct_zero_total (x : ℚ) :
    fmul100 (fdivQ x 0) = .nan ∨ fmul100 (fdivQ x 0) = .inf ∨ fmul100 (fdivQ x 0) = .ninf := by
  unfold fdivQ
  rw [if_pos rfl]
  by_cases hx : x = 0
  · rw [if_pos hx]; exact Or.inl rfl
  · rw [if_neg hx]
    by_cases hpos : 0 < x
    · rw [if_pos hpos]; exact Or.inr (Or.inl rfl)
    · rw [if_neg hpos]; exact Or.inr (Or.inr rfl)

theorem pct_zero_total_of_pos (x : ℚ) (hx : 0 < x) : fmul100 (fdivQ x 0) = .inf := by
  unfold fdivQ
  rw [if_pos rfl, if_neg (by linarith), if_pos hx]
  rfl

theorem pct_zero_total_ne_fv (x : ℚ) (q : ℚ) : fmul100 (fdivQ x 0) ≠ .fv q := by
  rcases pct_zero_total x with h | h | h <;> rw [h] <;> intro hc <;> cases hc

/-- Running cumsum over NaN/±inf percents, starting from a NaN or +inf
accumulator, only ever shows NaN or +inf. -/
theorem cumListFrom_nan_inf (ps : List FVal) (acc : FVal)
    (hacc : acc = .inf ∨ acc = .nan)
    (hp : ∀ p ∈ ps, p = .nan ∨ p = .inf ∨ p = .ninf) :
    ∀ c ∈ cumListFrom acc ps, c = .nan ∨ c = .inf := by
  induction ps generalizing acc with
  | nil => intro c hc; cases hc
  | cons p ps ih =>
      intro c hc
      rcases hp p (List.mem_cons_self _ _) with hpn | hpi | hpni
      · subst hpn
        rw [show cumListFrom acc (.nan :: ps) = .nan :: cumListFrom acc ps from rfl] at hc
        rcases List.mem_cons.1 hc with h1 | h1
        · exact Or.inl h1
        · exact ih acc hacc (fun q hq => hp q (List.mem_cons_of_mem _ hq)) c h1
      · subst hpi
        have hstep : fadd acc .inf = .inf ∨ fadd acc .inf = .nan := by
          rcases hacc with h | h <;> rw [h] <;> simp [fadd]
        rw [show cumListFrom acc (.inf :: ps) =
            fadd acc .inf :: cumListFrom (fadd acc .inf) ps from rfl] at hc
        rcases List.mem_cons.1 hc with h1 | h1
        · subst h1; exact hstep.symm.imp (fun h => h) (fun h => h)
        · exact ih (fadd acc .inf) (hstep.imp (fun h => h) (fun h => h))
            (fun q hq => hp q (List.mem_cons_of_mem _ hq)) c h1
      · subst hpni
        have hstep : fadd acc .ninf = .nan := by
          rcases hacc with h | h <;> rw [h] <;> rfl
        rw [show cumListFrom acc (.ninf :: ps) =
            fadd acc .ninf :: cumListFrom (fadd acc .ninf) ps from rfl] at hc
        rcases List.mem_cons.1 hc with h1 | h1
        · subst h1; rw [hstep]; exact Or.inl rfl
        · exact ih (fadd acc .ninf) (Or.inr hstep)
            (fun q hq => hp q (List.mem_cons_of_mem _ hq)) c h1

/-- cumsum of an all-NaN percent column is all NaN. -/
theorem cumListFrom_all_nan (ps : List FVal) (hp : ∀ p ∈ ps, p = FVal.nan) (acc : FVal) :
    ∀ c ∈ cumListFrom acc ps, c = FVal.nan := by
  induction ps generalizing acc with
  | nil => intro c hc; cases hc
  | cons p ps ih =>
      intro c hc
      have hpn := hp p (List.mem_cons_self _ _)
      subst hpn
      rw [show cumListFrom acc (FVal.nan :: ps) = .nan :: cumListFrom acc ps from rfl] at hc
      rcases List.mem_cons.1 hc with h1 | h1
      · exact h1
      · exact ih (fun q hq => hp q (List.mem_cons_of_mem _ hq)) acc c h1

-- ---------- Helper lemmas: the descending sort ----------

theorem mem_insertDescQ (x z : Val × ℚ) (l : List (Val × ℚ)) :
    z ∈ insertDescQ x l ↔ z = x ∨ z ∈ l := by
  induction l with
  | nil => simp [insertDescQ]
  | cons y ys ih =>
      rw [insertDescQ]
      by_cases hc : y.2 ≤ x.2
      · rw [if_pos hc]
        simp [List.mem_cons]
      · rw [if_neg hc]
        simp only [List.mem_cons, ih]
        tauto

theorem pairwise_insertDescQ (x : Val × ℚ) (l : List (Val × ℚ))
    (h : l.Pairwise (fun a b => b.2 ≤ a.2)) :
    (insertDescQ x l).Pairwise (fun a b => b.2 ≤ a.2) := by
  induction l with
  | nil => simp [insertDescQ]
  | cons y ys ih =>
      rw [insertDescQ]
      rcases List.pairwise_cons.1 h with ⟨hy, hys⟩
      by_cases hc : y.2 ≤ x.2
      · rw [if_pos hc]
        refine List.pairwise_cons.2 ⟨?_, h⟩
        intro z hz
        rcases List.mem_cons.1 hz with h1 | h1
        · subst h1; exact hc
        · exact le_trans (hy z h1) hc
      · rw [if_neg hc]
        refine List.pairwise_cons.2 ⟨?_, ih hys⟩
        intro z hz
        rcases (mem_insertDescQ x z ys).1 hz with h1 | h1
        · subst h1; linarith
        · exact hy z h1

theorem sortDescQ_sorted (l : List (Val × ℚ)) :
    (sortDescQ l).Pairwise (fun a b => b.2 ≤ a.2) := by
  induction l with
  | nil => exact List.Pairwise.nil
  | cons x xs ih => exact pairwise_insertDescQ x _ ih

theorem insertDescQ_perm (x : Val × ℚ) (l : List (Val × ℚ)) :
    List.Perm (insertDescQ x l) (x :: l) := by
  induction l with
  | nil => exact List.Perm.refl _
  | cons y ys ih =>
      rw [insertDescQ]
      by_cases hc : y.2 ≤ x.2
      · rw [if_pos hc]
      · rw [if_neg hc]
        exact (List.Perm.cons y ih).trans (List.Perm.swap x y ys)

theorem sortDescQ_perm (l : List (Val × ℚ)) : List.Perm (sortDescQ l) l := by
  induction l with
  | nil => exact List.Perm.refl _
  | cons x xs ih =>
      exact (insertDescQ_perm x (sortDescQ xs)).trans (List.Perm.cons x ih)

theorem abcSorted_sorted (df : DataFrame) :
    (abcSorted df).Pairwise (fun a b => b.2 ≤ a.2) := sortDescQ_sorted _

/-- Every entry of the cumulative column is NaN or +inf when the grand
total is zero: with a zero denominator every percent is NaN or ±inf,
and in descending order the first non-NaN percent (if any) is +inf
because the maximal sum of a zero-total nonzero family is positive. -/
theorem abcCums_zero_total (df : DataFrame) (htot : abcTotal df = 0) :
    ∀ c ∈ abcCums df, c = .nan ∨ c = .inf := by
  rw [abcCums]
  by_cases hall : ∀ kv ∈ abcSorted df, kv.2 = 0
  · intro c hc
    refine Or.inl (cumListFrom_all_nan (abcPcts df) ?_ (.fv 0) c hc)
    intro p hp
    rw [abcPcts, htot] at hp
    obtain ⟨kv, hkvmem, hkv⟩ := List.mem_map.1 hp
    rw [← hkv, hall kv hkvmem]
    rfl
  · push_neg at hall
    obtain ⟨kv0, hkv0mem, hkv0ne⟩ := hall
    rcases hsor : abcSorted df with _ | ⟨x, xs⟩
    · rw [hsor] at hkv0mem; cases hkv0mem
    · have hdesc := abcSorted_sorted df
      rw [hsor] at hdesc
      rcases List.pairwise_cons.1 hdesc with ⟨hxmax, _⟩
      have hsum : x.2 + (xs.map (fun kv => kv.2)).sum = 0 := by
        have : abcTotal df = ((x :: xs).map (fun kv => kv.2)).sum := by
          rw [abcTotal, hsor]
        rw [htot] at this
        simpa using this.symm
      have hxpos : 0 < x.2 := by
        by_contra hx0
        push_neg at hx0
        have hnonpos : ∀ a ∈ (x :: xs).map (fun kv => kv.2), a ≤ 0 := by
          intro a ha
          obtain ⟨kv, hkvm, hkva⟩ := List.mem_map.1 ha
          rw [← hkva]
          rcases List.mem_cons.1 hkvm with h1 | h1
          · subst h1; exact hx0
          · exact le_trans (hxmax kv h1) hx0
        have hy : kv0.2 ∈ (x :: xs).map (fun kv => kv.2) := by
          rw [← hsor]
          exact List.mem_map.2 ⟨kv0, hkv0mem, rfl⟩
        have hyneg : kv0.2 < 0 := by
          have := hnonpos kv0.2 hy
          rcases lt_or_eq_of_le this with h | h
          · exact h
          · exact absurd h hkv0ne
        have hcontra := sum_neg_of_nonpos_of_mem _ hnonpos kv0.2 hy hyneg
        have : ((x :: xs).map (fun kv => kv.2)).sum = 0 := by simpa using hsum
        linarith [this ▸ hcontra]
      have hpcts : abcPcts df =
          fmul100 (fdivQ x.2 0) :: xs.map (fun kv => fmul100 (fdivQ kv.2 0)) := by
        rw [abcPcts, hsor, htot]
        simp
      rw [hpcts, pct_zero_total_of_pos x.2 hxpos]
      rw [show cumListFrom (.fv 0) (FVal.inf :: xs.map (fun kv => fmul100 (fdivQ kv.2 0))) =
          FVal.inf :: cumListFrom FVal.inf (xs.map (fun kv => fmul100 (fdivQ kv.2 0))) from rfl]
      intro c hc
      rcases List.mem_cons.1 hc with h1 | h1
      · exact Or.inr h1
      · refine cumListFrom_nan_inf _ FVal.inf (Or.inl rfl) ?_ c h1
        intro p hp
        obtain ⟨kv, _, hkv⟩ := List.mem_map.1 hp
        rw [← hkv]
        exact pct_zero_total kv.2

/-- Reading a row of the assembled table: its pct is one of the
percents, its cum one of the cumulative values, and its category is
the classification of its cum. -/
theorem abcRows_mem (g : List (Val × ℚ)) (ps cs : List FVal) (row : AbcRow)
    (h : row ∈ abcRows g ps cs) :
    row.pct ∈ ps ∧ row.cum ∈ cs ∧ row.cat = clasificar row.cum := by
  induction g generalizing ps cs with
  | nil => rw [show abcRows [] ps cs = [] by cases ps <;> cases cs <;> rfl] at h; cases h
  | cons kv g ih =>
      rcases ps with _ | ⟨p, ps⟩
      · rw [show abcRows (kv :: g) [] cs = [] by cases cs <;> rfl] at h; cases h
      · rcases cs with _ | ⟨c, cs⟩
        · cases h
        · rw [show abcRows (kv :: g) (p :: ps) (c :: cs) =
              ⟨kv.1, kv.2, p, c, clasificar c⟩ :: abcRows g ps cs from rfl] at h
          rcases List.mem_cons.1 h with h1 | h1
          · subst h1
            exact ⟨List.mem_cons_self _ _, List.mem_cons_self _ _, rfl⟩
          · obtain ⟨h2, h3, h4⟩ := ih ps cs h1
            exact ⟨List.mem_cons_of_mem _ h2, List.mem_cons_of_mem _ h3, h4⟩

/-- C4 amended.  With a zero grand total the ABC stage does not raise
and every row is classified C, as the spec claims; but the percent and
cumulative values are not zero — they are NaN or infinities (floating
division by the zero total), so no row carries a finite zero percent. -/
theorem c4_amended (df : DataFrame) (t : List AbcRow)
    (ht : analisis_abc df = .ok t) (htot : abcTotal df = 0) :
    ∀ row ∈ t, row.cat = "C" ∧ row.pct ≠ .fv 0 ∧ row.cum ≠ .fv 0 := by
  have htabc : t = abcOf df := by
    unfold analisis_abc at ht
    rcases h : ensure_columns df [COL_PRODUCT, COL_SALES] with _ | u
    · rw [h] at ht; cases ht
    · rw [h] at ht
      exact (Except.ok.inj ht).symm
  subst htabc
  intro row hrow
  obtain ⟨hpct, hcum, hcat⟩ := abcRows_mem _ _ _ row hrow
  have hcumv := abcCums_zero_total df htot _ hcum
  refine ⟨?_, ?_, ?_⟩
  · rw [hcat]
    rcases hcumv with h | h <;> rw [h] <;> rfl
  · rw [abcPcts, htot] at hpct
    obtain ⟨kv, _, hkv⟩ := List.mem_map.1 hpct
    rw [← hkv]
    exact pct_zero_total_ne_fv kv.2 0
  · rcases hcumv with h | h <;> rw [h] <;> intro hc <;> cases hc

/-- Witness for C4 amended, at the zero-total frame dfC4: its single
table row is classified C with NaN percent and cumulative values. -/
theorem c4_witness :
    abcTotal dfC4 = 0 ∧
    (⟨Val.vStr "P1", 0, FVal.nan, FVal.nan, "C"⟩ : AbcRow) ∈ abcOf dfC4 ∧
    ((⟨Val.vStr "P1", 0, FVal.nan, FVal.nan, "C"⟩ : AbcRow).cat = "C" ∧
     (⟨Val.vStr "P1", 0, FVal.nan, FVal.nan, "C"⟩ : AbcRow).pct ≠ FVal.fv 0 ∧
     (⟨Val.vStr "P1", 0, FVal.nan, FVal.nan, "C"⟩ : AbcRow).cum ≠ FVal.fv 0) := by
  have hg : abcSorted dfC4 = [(Val.vStr "P1", (0 : ℚ) + 0)] := rfl
  have hs : abcSorted dfC4 = [(Val.vStr "P1", (0 : ℚ))] := by rw [hg]; norm_num
  have htot : abcTotal dfC4 = 0 := by rw [abcTotal, hs]; norm_num
  have hp : abcPcts dfC4 = [FVal.nan] := by
    rw [abcPcts, hs, htot]
    norm_num [fdivQ, fmul100]
  have hc : abcCums dfC4 = [FVal.nan] := by rw [abcCums, hp]; rfl
  have htable : abcOf dfC4 = [⟨Val.vStr "P1", 0, FVal.nan, FVal.nan, "C"⟩] := by
    rw [abcOf, hs, hp, hc]
    norm_num [abcRows, clasificar, fle]
  have hmem : (⟨Val.vStr "P1", 0, FVal.nan, FVal.nan, "C"⟩ : AbcRow) ∈ abcOf dfC4 := by
    rw [htable]
    exact List.mem_singleton_self _
  exact ⟨htot, hmem, c4_amended dfC4 (abcOf dfC4) rfl htot _ hmem⟩

-- ---------- Helper lemmas: grouped sums partition the dataset ----------

theorem dedupFirstAux_nodup {α : Type} [DecidableEq α] (seen : List α) (l : List α) :
    (dedupFirstAux seen l).Nodup ∧ ∀ x ∈ dedupFirstAux seen l, x ∉ seen := by
  induction l generalizing seen with
  | nil => exact ⟨List.nodup_nil, fun x hx => absurd hx (List.not_mem_nil x)⟩
  | cons y ys ih =>
      rw [dedupFirstAux]
      by_cases hy : y ∈ seen
      · rw [if_pos hy]
        exact ih seen
      · rw [if_neg hy]
        obtain ⟨hnd, hns⟩ := ih (y :: seen)
        refine ⟨List.nodup_cons.2 ⟨?_, hnd⟩, ?_⟩
        · intro hmem
          exact hns y hmem (List.mem_cons_self _ _)
        · intro x hx
          rcases List.mem_cons.1 hx with h1 | h1
          · subst h1; exact hy
          · intro hxs
            exact hns x h1 (List.mem_cons_of_mem _ hxs)

theorem dedupFirst_nodup {α : Type} [DecidableEq α] (l : List α) : (dedupFirst l).Nodup :=
  (dedupFirstAux_nodup [] l).1

theorem insertAscVal_perm (x : Val) (l : List Val) :
    List.Perm (insertAscVal x l) (x :: l) := by
  induction l with
  | nil => exact List.Perm.refl _
  | cons y ys ih =>
      rw [insertAscVal]
      by_cases hc : valLT x y = true
      · rw [if_pos hc]
      · rw [if_neg hc]
        exact (List.Perm.cons y ih).trans (List.Perm.swap x y ys)

theorem sortAscVal_perm (l : List Val) : List.Perm (sortAscVal l) l := by
  induction l with
  | nil => exact List.Perm.refl _
  | cons x xs ih =>
      exact (insertAscVal_perm x (sortAscVal xs)).trans (List.Perm.cons x ih)

theorem sortAscVal_nodup (l : List Val) (h : l.Nodup) : (sortAscVal l).Nodup :=
  ((sortAscVal_perm l).nodup_iff).2 h

theorem sum_filter_orb (rows : List (List Val)) (p q : List Val → Bool)
    (f : List Val → ℚ) (hdisj : ∀ r, ¬(p r = true ∧ q r = true)) :
    ((rows.filter (fun r => p r || q r)).map f).sum =
      ((rows.filter p).map f).sum + ((rows.filter q).map f).sum := by
  induction rows with
  | nil => simp
  | cons r rs ih =>
      cases hp : p r
      · cases hq : q r
        · simp only [List.filter_cons, hp, hq, Bool.false_or, Bool.false_eq_true, if_false]
          exact ih
        · simp only [List.filter_cons, hp, hq, Bool.false_or, if_true,
            Bool.false_eq_true, if_false, List.map_cons, List.sum_cons]
          rw [ih]
          ring
      · cases hq : q r
        · simp only [List.filter_cons, hp, hq, Bool.true_or, if_true, if_false,
            Bool.false_eq_true, List.map_cons, List.sum_cons]
          rw [ih]
          ring
        · exact absurd ⟨hp, hq⟩ (hdisj r)

theorem sum_filter_le (rows : List (List Val)) (p : List Val → Bool)
    (f : List Val → ℚ) (hf : ∀ r ∈ rows, 0 ≤ f r) :
    ((rows.filter p).map f).sum ≤ (rows.map f).sum := by
  induction rows with
  | nil => simp
  | cons r rs ih =>
      have hr := hf r (List.mem_cons_self _ _)
      have ih2 := ih (fun a ha => hf a (List.mem_cons_of_mem _ ha))
      cases hp : p r
      · simp only [List.filter_cons, hp, Bool.false_eq_true, if_false,
          List.map_cons, List.sum_cons]
        linarith
      · simp only [List.filter_cons, hp, if_true, List.map_cons, List.sum_cons]
        linarith

/-- Summing the per-key group sums over a duplicate-free key list
equals summing the value over the rows whose key is in the list. -/
theorem sum_groups_eq_sum_filter_mem (keys : List Val) (rows : List (List Val))
    (ki vi : ℕ) (hnd : keys.Nodup) :
    (keys.map (fun k =>
        ((rows.filter (fun r => cellAt r ki = k)).map (fun r => numCell (cellAt r vi))).sum)).sum =
      ((rows.filter (fun r => decide (cellAt r ki ∈ keys))).map
        (fun r => numCell (cellAt r vi))).sum := by
  induction keys with
  | nil => simp
  | cons k ks ih =>
      rcases List.nodup_cons.1 hnd with ⟨hk, hks⟩
      rw [List.map_cons, List.sum_cons, ih hks]
      have hfe : rows.filter (fun r => decide (cellAt r ki ∈ k :: ks)) =
          rows.filter (fun r => (decide (cellAt r ki = k)) || (decide (cellAt r ki ∈ ks))) := by
        apply List.filter_congr
        intro r _
        simp [List.mem_cons]
      have hdisj : ∀ r, ¬((fun r => decide (cellAt r ki = k)) r = true ∧
          (fun r => decide (cellAt r ki ∈ ks)) r = true) := by
        intro r ⟨h1, h2⟩
        rw [decide_eq_true_iff] at h1 h2
        exact hk (h1 ▸ h2)
      rw [hfe, sum_filter_orb rows _ _ _ hdisj]

theorem take_sum_le_of_nonneg (l : List ℚ) (n : ℕ) (h : ∀ a ∈ l, 0 ≤ a) :
    (l.take n).sum ≤ l.sum := by
  conv_rhs => rw [← List.take_append_drop n l]
  rw [List.sum_append]
  have : 0 ≤ (l.drop n).sum := by
    apply List.sum_nonneg
    intro a ha
    exact h a (List.mem_of_mem_drop ha)
  linarith

/-- C7 amended.  For a cleaned dataset whose sales values are all
non-negative (or missing), the sum of the top-n sales values is at
most the total sales over the dataset.  (With a negative sales value
the bound fails, as the counterexample shows: dropping the negative
groups can leave the top groups summing to more than the total.) -/
theorem c7_amended (df : DataFrame) (n : ℕ) (hclean : SalesClean df) :
    ((topList df COL_SALES n).map (fun kv => kv.2)).sum ≤ totalSalesDF df := by
  have hcell : ∀ r ∈ df.rows, 0 ≤ numCell (cellAt r (colIdx df COL_SALES)) := by
    intro r hr
    exact (hclean _ (List.mem_map.2 ⟨r, hr, rfl⟩)).2
  -- each group sum is non-negative
  have hgroup : ∀ kv ∈ groupSumBy df COL_PRODUCT COL_SALES, 0 ≤ kv.2 := by
    intro kv hkv
    rw [groupSumBy] at hkv
    obtain ⟨k, _, hk⟩ := List.mem_map.1 hkv
    rw [← hk]
    apply List.sum_nonneg
    intro a ha
    obtain ⟨r, hrmem, hra⟩ := List.mem_map.1 ha
    rw [← hra]
    exact hcell r (List.mem_of_mem_filter hrmem)
  -- the top-n sum is at most the sum over all groups
  have h1 : ((topList df COL_SALES n).map (fun kv => kv.2)).sum ≤
      ((sortDescQ (groupSumBy df COL_PRODUCT COL_SALES)).map (fun kv => kv.2)).sum := by
    rw [topList, List.map_take]
    apply take_sum_le_of_nonneg
    intro a ha
    obtain ⟨kv, hkvmem, hkva⟩ := List.mem_map.1 ha
    rw [← hkva]
    exact hgroup kv ((sortDescQ_perm _).mem_iff.1 hkvmem)
  -- the sum over all groups is the sum over grouped rows
  have h2 : ((sortDescQ (groupSumBy df COL_PRODUCT COL_SALES)).map (fun kv => kv.2)).sum =
      ((groupSumBy df COL_PRODUCT COL_SALES).map (fun kv => kv.2)).sum :=
    ((sortDescQ_perm _).map (fun kv => kv.2)).sum_eq
  have hnd : (sortAscVal (dedupFirst
      ((df.rows.map (fun r => cellAt r (colIdx df COL_PRODUCT))).filter
        (fun v => v ≠ Val.vNA)))).Nodup :=
    sortAscVal_nodup _ (dedupFirst_nodup _)
  have h3 : ((groupSumBy df COL_PRODUCT COL_SALES).map (fun kv => kv.2)).sum ≤
      totalSalesDF df := by
    rw [groupSumBy, List.map_map]
    have hrw : ((fun kv : Val × ℚ => kv.2) ∘ (fun k =>
        (k, ((df.rows.filter (fun r => cellAt r (colIdx df COL_PRODUCT) = k)).map
          (fun r => numCell (cellAt r (colIdx df COL_SALES)))).sum))) = (fun k =>
        ((df.rows.filter (fun r => cellAt r (colIdx df COL_PRODUCT) = k)).map
          (fun r => numCell (cellAt r (colIdx df COL_SALES)))).sum) := rfl
    rw [hrw, sum_groups_eq_sum_filter_mem _ _ _ _ hnd]
    have htot : totalSalesDF df =
        (df.rows.map (fun r => numCell (cellAt r (colIdx df COL_SALES)))).sum := by
      rw [totalSalesDF, getCol, List.map_map]
      rfl
    rw [htot]
    exact sum_filter_le _ _ _ hcell
  calc ((topList df COL_SALES n).map (fun kv => kv.2)).sum
      ≤ ((sortDescQ (groupSumBy df COL_PRODUCT COL_SALES)).map (fun kv => kv.2)).sum := h1
    _ = ((groupSumBy df COL_PRODUCT COL_SALES).map (fun kv => kv.2)).sum := h2
    _ ≤ totalSalesDF df := h3

/-- Witness for C7 amended: dfC3 (no SALES column at all: every sales
read is missing, contributing zero) and, more interestingly, dfC4. -/
theorem c7_witness :
    SalesClean dfC4 ∧
    ((topList dfC4 COL_SALES 1).map (fun kv => kv.2)).sum ≤ totalSalesDF dfC4 :=
  ⟨by decide, c7_amended dfC4 1 (by decide)⟩

-- ---------- Helper lemmas: key order and sort stability ----------

theorem charsLT_trans : ∀ as bs cs : List Char,
    charsLT as bs = true → charsLT bs cs = true → charsLT as cs = true := by
  intro as
  induction as with
  | nil =>
      intro bs cs h1 h2
      cases bs with
      | nil => cases h1
      | cons b bs =>
          cases cs with
          | nil => cases h2
          | cons c cs => rfl
  | cons a as ih =>
      intro bs cs h1 h2
      cases bs with
      | nil => cases h1
      | cons b bs =>
          cases cs with
          | nil => cases h2
          | cons c cs =>
              rw [charsLT] at h1 h2 ⊢
              by_cases hab : a < b
              · rw [if_pos hab] at h1
                by_cases hbc : b < c
                · rw [if_pos (lt_trans hab hbc)]
                · by_cases hcb : c < b
                  · rw [if_neg hbc, if_pos hcb] at h2
                    cases h2
                  · have hbceq : b = c := le_antisymm (le_of_not_lt hcb) (le_of_not_lt hbc)
                    rw [if_pos (hbceq ▸ hab)]
              · by_cases hba : b < a
                · rw [if_neg hab, if_pos hba] at h1
                  cases h1
                · have habeq : a = b := le_antisymm (le_of_not_lt hba) (le_of_not_lt hab)
                  rw [if_neg hab, if_neg hba] at h1
                  by_cases hbc : b < c
                  · rw [if_pos (habeq ▸ hbc)]
                  · by_cases hcb : c < b
                    · rw [if_neg hbc, if_pos hcb] at h2
                      cases h2
                    · have hbceq : b = c := le_antisymm (le_of_not_lt hcb) (le_of_not_lt hbc)
                      rw [if_neg hbc, if_neg hcb] at h2
                      have hac : ¬ a < c := by rw [← hbceq]; exact hab
                      have hca : ¬ c < a := by rw [← hbceq]; exact hba
                      rw [if_neg hac, if_neg hca]
                      exact ih bs cs h1 h2

theorem charsLT_total_of_ne : ∀ as bs : List Char, as ≠ bs →
    charsLT as bs = true ∨ charsLT bs as = true := by
  intro as
  induction as with
  | nil =>
      intro bs h
      cases bs with
      | nil => exact absurd rfl h
      | cons b bs => exact Or.inl rfl
  | cons a as ih =>
      intro bs h
      cases bs with
      | nil => exact Or.inr rfl
      | cons b bs =>
          by_cases hab : a < b
          · exact Or.inl (by rw [charsLT, if_pos hab])
          · by_cases hba : b < a
            · exact Or.inr (by rw [charsLT, if_pos hba])
            · have habeq : a = b := le_antisymm (le_of_not_lt hba) (le_of_not_lt hab)
              subst habeq
              have hne : as ≠ bs := by
                intro hc
                exact h (by rw [hc])
              rcases ih bs hne with h1 | h1
              · exact Or.inl (by rw [charsLT, if_neg hab, if_neg hab]; exact h1)
              · exact Or.inr (by rw [charsLT, if_neg hab, if_neg hab]; exact h1)

theorem valLT_trans (a b c : Val) (h1 : valLT a b = true) (h2 : valLT b c = true) :
    valLT a c = true := by
  cases a <;> cases b <;> cases c <;>
    simp only [valLT, valRank, strLT, decide_eq_true_iff] at h1 h2 ⊢ <;>
    first
      | omega
      | exact charsLT_trans _ _ _ h1 h2
      | exact lt_trans h1 h2

theorem valLT_total_of_ne (a b : Val) (h : a ≠ b) :
    valLT a b = true ∨ valLT b a = true := by
  cases a <;> cases b <;>
    simp only [valLT, valRank, strLT, decide_eq_true_iff, Val.vStr.injEq, Val.vNum.injEq,
      Val.vDate.injEq, ne_eq] at h ⊢
  case vStr.vStr s t =>
    refine charsLT_total_of_ne _ _ ?_
    intro hc
    exact h (by
      have : (String.mk s.toList) = String.mk t.toList := by rw [hc]
      simpa using this)
  case vNum.vNum p q =>
    rcases lt_trichotomy p q with hlt | heq | hgt
    · exact Or.inl hlt
    · exact absurd heq h
    · exact Or.inr hgt
  case vDate.vDate p q => omega
  case vNA.vNA => exact absurd trivial h
  all_goals omega

theorem pairwise_insertAscVal (x : Val) (l : List Val)
    (hx : x ∉ l) (h : l.Pairwise (fun a b => valLT a b = true)) :
    (insertAscVal x l).Pairwise (fun a b => valLT a b = true) := by
  induction l with
  | nil => simp [insertAscVal]
  | cons y ys ih =>
      rcases List.pairwise_cons.1 h with ⟨hy, hys⟩
      rw [insertAscVal]
      by_cases hc : valLT x y = true
      · rw [if_pos hc]
        refine List.pairwise_cons.2 ⟨?_, h⟩
        intro z hz
        rcases List.mem_cons.1 hz with h1 | h1
        · subst h1; exact hc
        · exact valLT_trans x y z hc (hy z h1)
      · rw [if_neg hc]
        have hxy : x ≠ y := by
          intro hxe
          exact hx (hxe ▸ List.mem_cons_self _ _)
        have hyx : valLT y x = true := by
          rcases valLT_total_of_ne x y hxy with h1 | h1
          · exact absurd h1 hc
          · exact h1
        refine List.pairwise_cons.2 ⟨?_, ih (fun hm => hx (List.mem_cons_of_mem _ hm)) hys⟩
        intro z hz
        rcases List.mem_cons.1 ((insertAscVal_perm x ys).mem_iff.1 hz) with h1 | h1
        · exact h1 ▸ hyx
        · exact hy z h1

theorem sortAscVal_pairwise (l : List Val) (h : l.Nodup) :
    (sortAscVal l).Pairwise (fun a b => valLT a b = true) := by
  induction l with
  | nil => exact List.Pairwise.nil
  | cons x xs ih =>
      rcases List.nodup_cons.1 h with ⟨hx, hxs⟩
      exact pairwise_insertAscVal x (sortAscVal xs)
        (fun hm => hx ((sortAscVal_perm xs).mem_iff.1 hm)) (ih hxs)

/-- The relation the amended tie-break claim asserts along the top-n
list: strictly larger sum first, and among equal sums ascending
product-code order (the order `groupby`'s sorted keys induce). -/
def descThenKey (a b : Val × ℚ) : Prop :=
  b.2 < a.2 ∨ (a.2 = b.2 ∧ valLT a.1 b.1 = true)

theorem descThenKey_le (a b : Val × ℚ) (h : descThenKey a b) : b.2 ≤ a.2 := by
  rcases h with h | ⟨h, _⟩
  · exact le_of_lt h
  · exact le_of_eq h.symm

theorem pairwise_insertDescQ_lex (x : Val × ℚ) (l : List (Val × ℚ))
    (hkey : ∀ y ∈ l, valLT x.1 y.1 = true) (h : l.Pairwise descThenKey) :
    (insertDescQ x l).Pairwise descThenKey := by
  induction l with
  | nil => simp [insertDescQ, descThenKey]
  | cons y ys ih =>
      rcases List.pairwise_cons.1 h with ⟨hy, hys⟩
      rw [insertDescQ]
      by_cases hc : y.2 ≤ x.2
      · rw [if_pos hc]
        refine List.pairwise_cons.2 ⟨?_, h⟩
        intro z hz
        have hz2 : z.2 ≤ x.2 := by
          rcases List.mem_cons.1 hz with h1 | h1
          · exact h1 ▸ hc
          · exact le_trans (descThenKey_le y z (hy z h1)) hc
        rcases lt_or_eq_of_le hz2 with h2 | h2
        · exact Or.inl h2
        · exact Or.inr ⟨h2.symm, hkey z hz⟩
      · rw [if_neg hc]
        push_neg at hc
        refine List.pairwise_cons.2
          ⟨?_, ih (fun z hz => hkey z (List.mem_cons_of_mem _ hz)) hys⟩
        intro z hz
        rcases List.mem_cons.1 ((insertDescQ_perm x ys).mem_iff.1 hz) with h1 | h1
        · exact Or.inl (h1 ▸ hc)
        · exact hy z h1

theorem sortDescQ_pairwise_lex (l : List (Val × ℚ))
    (hkeys : l.Pairwise (fun a b => valLT a.1 b.1 = true)) :
    (sortDescQ l).Pairwise descThenKey := by
  induction l with
  | nil => exact List.Pairwise.nil
  | cons x xs ih =>
      rcases List.pairwise_cons.1 hkeys with ⟨hx, hxs⟩
      exact pairwise_insertDescQ_lex x (sortDescQ xs)
        (fun y hy => hx y ((sortDescQ_perm xs).mem_iff.1 hy)) (ih hxs)

/-- The grouped sums come out with strictly ascending product codes. -/
theorem groupSumBy_keys_pairwise (df : DataFrame) (keyCol valCol : String) :
    (groupSumBy df keyCol valCol).Pairwise (fun a b => valLT a.1 b.1 = true) := by
  rw [groupSumBy]
  refine List.Pairwise.map _ ?_ (sortAscVal_pairwise _ (dedupFirst_nodup _))
  intro a b hab
  exact hab

/-- C3 amended.  The tie order of `top_products` is not
first-appearance order but ascending product-code order: `groupby`
sorts the group keys, and the descending value sort keeps that order
among equal sums, so along the top-n list any two entries with equal
sums appear with their product codes in ascending order. -/
theorem c3_amended (df : DataFrame) (valCol : String) (n : ℕ) :
    (topList df valCol n).Pairwise descThenKey := by
  rw [topList]
  exact ((sortDescQ_pairwise_lex _ (groupSumBy_keys_pairwise df COL_PRODUCT valCol)).sublist
    (List.take_sublist n _))

-- ---------- Helper lemmas: the cumulative column with a nonzero total ----------

theorem cumListFrom_length (acc : FVal) (ps : List FVal) :
    (cumListFrom acc ps).length = ps.length := by
  induction ps generalizing acc with
  | nil => rfl
  | cons p ps ih =>
      cases p <;> simp [cumListFrom, ih]

theorem cumListFrom_fv (a : ℚ) (l : List ℚ) :
    cumListFrom (.fv a) (l.map FVal.fv) = (runningFrom a l).map FVal.fv := by
  induction l generalizing a with
  | nil => rfl
  | cons x xs ih =>
      rw [List.map_cons,
        show cumListFrom (.fv a) (FVal.fv x :: xs.map FVal.fv) =
          fadd (.fv a) (.fv x) :: cumListFrom (fadd (.fv a) (.fv x)) (xs.map FVal.fv) from rfl,
        show fadd (FVal.fv a) (.fv x) = .fv (a + x) from rfl, ih (a + x)]
      rfl

theorem runningFrom_length (a : ℚ) (l : List ℚ) : (runningFrom a l).length = l.length := by
  induction l generalizing a with
  | nil => rfl
  | cons x xs ih => simp [runningFrom, ih]

theorem runningFrom_getD (a : ℚ) (l : List ℚ) (i : ℕ) (h : i < l.length) :
    (runningFrom a l).getD i 0 = a + (l.take (i + 1)).sum := by
  induction l generalizing a i with
  | nil => cases h
  | cons x xs ih =>
      cases i with
      | zero =>
          rw [show runningFrom a (x :: xs) = (a + x) :: runningFrom (a + x) xs from rfl]
          simp
      | succ n =>
          rw [show runningFrom a (x :: xs) = (a + x) :: runningFrom (a + x) xs from rfl]
          rw [List.getD_cons_succ]
          rw [ih (a + x) n (by simpa using Nat.lt_of_succ_lt_succ h)]
          rw [show (x :: xs).take (n + 1 + 1) = x :: xs.take (n + 1) from rfl]
          rw [List.sum_cons]
          ring

theorem getLast?_cons_of_ne_nil {α : Type} (c : α) (l : List α) (hl : l ≠ []) :
    (c :: l).getLast? = l.getLast? := by
  cases l with
  | nil => exact absurd rfl hl
  | cons y ys => exact List.getLast?_cons_cons

theorem runningFrom_ne_nil (a : ℚ) (l : List ℚ) (h : l ≠ []) : runningFrom a l ≠ [] := by
  cases l with
  | nil => exact absurd rfl h
  | cons x xs => exact List.cons_ne_nil _ _

theorem runningFrom_getLast? (a : ℚ) (l : List ℚ) (h : l ≠ []) :
    (runningFrom a l).getLast? = some (a + l.sum) := by
  induction l generalizing a with
  | nil => exact absurd rfl h
  | cons x xs ih =>
      rw [show runningFrom a (x :: xs) = (a + x) :: runningFrom (a + x) xs from rfl]
      cases hxs : xs with
      | nil => simp [runningFrom]
      | cons y ys =>
          subst hxs
          rw [getLast?_cons_of_ne_nil _ _
            (runningFrom_ne_nil (a + x) (y :: ys) (List.cons_ne_nil y ys))]
          rw [ih (a + x) (List.cons_ne_nil y ys)]
          congr 1
          rw [List.sum_cons, List.sum_cons, List.sum_cons]
          ring

/-- Transfer of a threshold test across the percent formula, positive
total. -/
theorem cum_le_iff_pos (pre θ T : ℚ) (hT : 0 < T) :
    pre / T * 100 ≤ θ ↔ pre ≤ θ * T / 100 := by
  rw [le_div_iff₀ (by norm_num : (0 : ℚ) < 100)]
  rw [div_mul_eq_mul_div, div_le_iff₀ hT]

/-- Transfer of a threshold test across the percent formula, negative
total. -/
theorem cum_le_iff_neg (pre θ T : ℚ) (hT : T < 0) :
    pre / T * 100 ≤ θ ↔ θ * T / 100 ≤ pre := by
  rw [div_le_iff₀ (by norm_num : (0 : ℚ) < 100)]
  rw [div_mul_eq_mul_div, div_le_iff_of_neg hT]

theorem qrank_le_of_thresholds (u v : ℚ) (h80 : v ≤ 80 → u ≤ 80) (h95 : v ≤ 95 → u ≤ 95) :
    qrank u ≤ qrank v := by
  unfold qrank
  by_cases hv80 : v ≤ 80
  · rw [if_pos hv80, if_pos (h80 hv80)]
  · by_cases hv95 : v ≤ 95
    · have hu95 := h95 hv95
      rw [if_neg hv80, if_pos hv95]
      by_cases hu80 : u ≤ 80
      · rw [if_pos hu80]; omega
      · rw [if_neg hu80, if_pos hu95]
    · rw [if_neg hv80, if_neg hv95]
      by_cases hu80 : u ≤ 80
      · rw [if_pos hu80]; omega
      · by_cases hu95 : u ≤ 95
        · rw [if_neg hu80, if_pos hu95]; omega
        · rw [if_neg hu80, if_neg hu95]

theorem catRank_clasificar_fv (q : ℚ) : catRank (clasificar (.fv q)) = qrank q := by
  unfold clasificar qrank
  by_cases h80 : q ≤ 80
  · rw [if_pos (show fle (.fv q) (.fv 80) = true by simpa [fle] using h80), if_pos h80]
    rfl
  · rw [if_neg (show ¬ fle (.fv q) (.fv 80) = true by simpa [fle] using h80), if_neg h80]
    by_cases h95 : q ≤ 95
    · rw [if_pos (show fle (.fv q) (.fv 95) = true by simpa [fle] using h95), if_pos h95]
      rfl
    · rw [if_neg (show ¬ fle (.fv q) (.fv 95) = true by simpa [fle] using h95), if_neg h95]
      rfl

-- ---------- Helper lemmas: prefix sums of a descending list ----------

/-- In a descending list with grand sum above `c`, once a prefix sum
falls to `c` or below, every earlier prefix sum was too: a later low
prefix forces a negative element, hence an all-nonpositive tail, hence
a prefix at least the grand sum — contradiction. -/
theorem prefix_le_posT (s : List ℚ) (hdesc : s.Pairwise (fun a b => b ≤ a))
    (c : ℚ) (hc : c < s.sum) (j k : ℕ) (hjk : j ≤ k)
    (hks : (s.take (k + 1)).sum ≤ c) : (s.take (j + 1)).sum ≤ c := by
  by_contra hA
  push_neg at hA
  have hsplit : s.take (k + 1) = s.take (j + 1) ++ (s.drop (j + 1)).take (k - j) := by
    rw [← List.take_add]
    congr 1
    omega
  have hBsum : (s.take (j + 1)).sum + ((s.drop (j + 1)).take (k - j)).sum ≤ c := by
    rw [← List.sum_append, ← hsplit]
    exact hks
  have hbex : ∃ b ∈ (s.drop (j + 1)).take (k - j), b < 0 := by
    by_contra hno
    push_neg at hno
    have := List.sum_nonneg hno
    linarith
  obtain ⟨b, hbB, hbneg⟩ := hbex
  have hs : s = (s.take (j + 1) ++ (s.drop (j + 1)).take (k - j)) ++ s.drop (k + 1) := by
    rw [← hsplit, List.take_append_drop]
  have hpair : ((s.take (j + 1) ++ (s.drop (j + 1)).take (k - j)) ++
      s.drop (k + 1)).Pairwise (fun a b => b ≤ a) := by
    rw [← hs]
    exact hdesc
  rw [List.pairwise_append] at hpair
  obtain ⟨_, _, hcross⟩ := hpair
  have hCnp : ∀ x ∈ s.drop (k + 1), x ≤ 0 := by
    intro x hx
    have := hcross b (List.mem_append_right _ hbB) x hx
    linarith
  have hCsum : (s.drop (k + 1)).sum ≤ 0 := list_sum_nonpos _ hCnp
  have hTsum : s.sum = (s.take (j + 1)).sum + ((s.drop (j + 1)).take (k - j)).sum +
      (s.drop (k + 1)).sum := by
    conv_lhs => rw [hs]
    rw [List.sum_append, List.sum_append]
  linarith

/-- Mirror image for a negative threshold: once a prefix sum is at
least `c`, every earlier prefix sum was too (a later rise forces a
positive element, hence an all-positive head, hence a nonnegative
earlier prefix, above the negative `c`). -/
theorem prefix_ge_negc (s : List ℚ) (hdesc : s.Pairwise (fun a b => b ≤ a))
    (c : ℚ) (hcneg : c < 0) (j k : ℕ) (hjk : j ≤ k)
    (hks : c ≤ (s.take (k + 1)).sum) : c ≤ (s.take (j + 1)).sum := by
  by_contra hA
  push_neg at hA
  have hsplit : s.take (k + 1) = s.take (j + 1) ++ (s.drop (j + 1)).take (k - j) := by
    rw [← List.take_add]
    congr 1
    omega
  have hBsum : c ≤ (s.take (j + 1)).sum + ((s.drop (j + 1)).take (k - j)).sum := by
    rw [← List.sum_append, ← hsplit]
    exact hks
  have hbex : ∃ b ∈ (s.drop (j + 1)).take (k - j), 0 < b := by
    by_contra hno
    push_neg at hno
    have := list_sum_nonpos _ hno
    linarith
  obtain ⟨b, hbB, hbpos⟩ := hbex
  have hpair : (s.take (j + 1) ++ (s.drop (j + 1)).take (k - j)).Pairwise
      (fun a b => b ≤ a) := by
    rw [← hsplit]
    exact hdesc.sublist (List.take_sublist _ _)
  rw [List.pairwise_append] at hpair
  obtain ⟨_, _, hcross⟩ := hpair
  have hAnn : ∀ a ∈ s.take (j + 1), 0 ≤ a := by
    intro a ha
    have := hcross a ha b hbB
    linarith
  have := List.sum_nonneg hAnn
  linarith

theorem take_sum_mono (l : List ℚ) (hnn : ∀ a ∈ l, 0 ≤ a) (i j : ℕ) (hij : i ≤ j) :
    (l.take i).sum ≤ (l.take j).sum := by
  have hsplit : l.take j = l.take i ++ (l.drop i).take (j - i) := by
    rw [← List.take_add]
    congr 1
    omega
  rw [hsplit, List.sum_append]
  have : 0 ≤ ((l.drop i).take (j - i)).sum := by
    apply List.sum_nonneg
    intro a ha
    exact hnn a (List.drop_subset _ _ (List.take_subset _ _ ha))
  linarith

theorem sum_map_div_mul (l : List ℚ) (T : ℚ) :
    (l.map (fun x => x / T * 100)).sum = l.sum / T * 100 := by
  induction l with
  | nil => simp
  | cons x xs ih =>
      rw [List.map_cons, List.sum_cons, List.sum_cons, ih]
      ring

-- ---------- Helper lemmas: projections of the assembled ABC table ----------

theorem abcRows_map_cum : ∀ (g : List (Val × ℚ)) (ps cs : List FVal),
    ps.length = g.length → cs.length = ps.length →
    (abcRows g ps cs).map (fun row => row.cum) = cs := by
  intro g
  induction g with
  | nil =>
      intro ps cs h1 h2
      have hps : ps = [] := List.eq_nil_of_length_eq_zero (by rw [h1]; rfl)
      subst hps
      have hcs : cs = [] := List.eq_nil_of_length_eq_zero (by rw [h2]; rfl)
      subst hcs
      rfl
  | cons kv g ih =>
      intro ps cs h1 h2
      rcases ps with _ | ⟨p, ps⟩
      · cases h1
      · rcases cs with _ | ⟨c, cs⟩
        · cases h2
        · rcases kv with ⟨k, v⟩
          rw [show abcRows ((k, v) :: g) (p :: ps) (c :: cs) =
              ⟨k, v, p, c, clasificar c⟩ :: abcRows g ps cs from rfl]
          rw [List.map_cons, ih ps cs (by simpa using h1) (by simpa using h2)]

theorem abcRows_map_cat : ∀ (g : List (Val × ℚ)) (ps cs : List FVal),
    ps.length = g.length → cs.length = ps.length →
    (abcRows g ps cs).map (fun row => row.cat) = cs.map clasificar := by
  intro g
  induction g with
  | nil =>
      intro ps cs h1 h2
      have hps : ps = [] := List.eq_nil_of_length_eq_zero (by rw [h1]; rfl)
      subst hps
      have hcs : cs = [] := List.eq_nil_of_length_eq_zero (by rw [h2]; rfl)
      subst hcs
      rfl
  | cons kv g ih =>
      intro ps cs h1 h2
      rcases ps with _ | ⟨p, ps⟩
      · cases h1
      · rcases cs with _ | ⟨c, cs⟩
        · cases h2
        · rcases kv with ⟨k, v⟩
          rw [show abcRows ((k, v) :: g) (p :: ps) (c :: cs) =
              ⟨k, v, p, c, clasificar c⟩ :: abcRows g ps cs from rfl]
          rw [List.map_cons, List.map_cons, ih ps cs (by simpa using h1) (by simpa using h2)]

theorem abcRows_map_sales : ∀ (g : List (Val × ℚ)) (ps cs : List FVal),
    ps.length = g.length → cs.length = ps.length →
    (abcRows g ps cs).map (fun row => row.sales) = g.map (fun kv => kv.2) := by
  intro g
  induction g with
  | nil =>
      intro ps cs h1 h2
      rfl
  | cons kv g ih =>
      intro ps cs h1 h2
      rcases ps with _ | ⟨p, ps⟩
      · cases h1
      · rcases cs with _ | ⟨c, cs⟩
        · cases h2
        · rcases kv with ⟨k, v⟩
          rw [show abcRows ((k, v) :: g) (p :: ps) (c :: cs) =
              ⟨k, v, p, c, clasificar c⟩ :: abcRows g ps cs from rfl]
          rw [List.map_cons, List.map_cons, ih ps cs (by simpa using h1) (by simpa using h2)]

/-- A successful `analisis_abc` returns exactly the abcOf table. -/
theorem abc_ok_table (df : DataFrame) (t : List AbcRow)
    (ht : analisis_abc df = .ok t) : t = abcOf df := by
  unfold analisis_abc at ht
  rcases h : ensure_columns df [COL_PRODUCT, COL_SALES] with _ | u
  · rw [h] at ht; cases ht
  · rw [h] at ht
    exact (Except.ok.inj ht).symm

theorem getD_map_fv (l : List ℚ) (i : ℕ) :
    (l.map FVal.fv).getD i (.fv 0) = .fv (l.getD i 0) := by
  induction l generalizing i with
  | nil => cases i <;> rfl
  | cons x xs ih =>
      cases i with
      | zero => rfl
      | succ n => simp [ih n]

/-- With a nonzero grand total every percent is finite, and the
cumulative column is the running sum of the finite percents. -/
theorem abcCums_eq_of_ne (df : DataFrame) (hT : abcTotal df ≠ 0) :
    abcCums df = (runningFrom 0 (((abcSorted df).map (fun kv => kv.2)).map
      (fun x => x / abcTotal df * 100))).map FVal.fv := by
  rw [abcCums]
  have hp : abcPcts df = ((((abcSorted df).map (fun kv => kv.2)).map
      (fun x => x / abcTotal df * 100)).map FVal.fv) := by
    rw [abcPcts, List.map_map, List.map_map]
    apply List.map_congr_left
    intro kv _
    show fmul100 (fdivQ kv.2 (abcTotal df)) = FVal.fv (kv.2 / abcTotal df * 100)
    unfold fdivQ
    rw [if_neg hT]
    rfl
  rw [hp, cumListFrom_fv]

theorem abcCums_getD_of_ne (df : DataFrame) (hT : abcTotal df ≠ 0) (i : ℕ)
    (hi : i < (abcSorted df).length) :
    (abcCums df).getD i (.fv 0) =
      .fv ((((abcSorted df).map (fun kv => kv.2)).take (i + 1)).sum / abcTotal df * 100) := by
  rw [abcCums_eq_of_ne df hT, getD_map_fv,
    runningFrom_getD 0 _ i (by simpa using hi), zero_add, ← List.map_take, sum_map_div_mul]

/-- C6 amended.  In the ABC table: (i) the cumulative percent column
is non-decreasing whenever the grand total is positive and every
per-product sum is non-negative (with a negative sum it can decrease,
as the counterexample shows); (ii) with a positive grand total the
last row's cumulative percent is exactly 100; (iii) for every input,
the category sequence never goes back up: no A row follows a B or C
row and no B row follows a C row. -/
theorem c6_amended (df : DataFrame) (t : List AbcRow) (ht : analisis_abc df = .ok t) :
    (0 < abcTotal df → (∀ row ∈ t, 0 ≤ row.sales) →
        List.Pairwise (fun a b => fle a.cum b.cum = true) t) ∧
    (0 < abcTotal df → ∀ row, t.getLast? = some row → row.cum = .fv 100) ∧
    List.Pairwise (fun a b => catRank a.cat ≤ catRank b.cat) t := by
  have htab := abc_ok_table df t ht
  subst htab
  have h1 : (abcPcts df).length = (abcSorted df).length := List.length_map _ _
  have h2 : (abcCums df).length = (abcPcts df).length := cumListFrom_length _ _
  have hmap_cum : (abcOf df).map (fun row => row.cum) = abcCums df :=
    abcRows_map_cum (abcSorted df) (abcPcts df) (abcCums df) h1 h2
  have hmap_sales : (abcOf df).map (fun row => row.sales) = (abcSorted df).map (fun kv => kv.2) :=
    abcRows_map_sales (abcSorted df) (abcPcts df) (abcCums df) h1 h2
  have hlen_cs : (abcCums df).length = (abcSorted df).length := h2.trans h1
  have hdesc_vals : ((abcSorted df).map (fun kv => kv.2)).Pairwise (fun a b => b ≤ a) := by
    rw [List.pairwise_map]
    exact abcSorted_sorted df
  have hTsum : ((abcSorted df).map (fun kv => kv.2)).sum = abcTotal df := rfl
  refine ⟨?_, ?_, ?_⟩
  · -- (i) monotone under positive total and nonnegative sums
    intro hTpos hsal
    have hT0 : abcTotal df ≠ 0 := ne_of_gt hTpos
    have hvals_nn : ∀ v ∈ (abcSorted df).map (fun kv => kv.2), 0 ≤ v := by
      intro v hv
      rw [← hmap_sales] at hv
      obtain ⟨row, hrow, hrv⟩ := List.mem_map.1 hv
      exact hrv ▸ hsal row hrow
    suffices hcs : List.Pairwise (fun a b => fle a b = true) (abcCums df) by
      rw [← hmap_cum] at hcs
      exact (List.pairwise_map).1 hcs
    rw [List.pairwise_iff_getElem]
    intro i j hi hj hij
    have hi' : i < (abcSorted df).length := by rw [← hlen_cs]; exact hi
    have hj' : j < (abcSorted df).length := by rw [← hlen_cs]; exact hj
    have ei : (abcCums df)[i] =
        .fv ((((abcSorted df).map (fun kv => kv.2)).take (i + 1)).sum / abcTotal df * 100) :=
      (List.getD_eq_getElem _ _ hi).symm.trans (abcCums_getD_of_ne df hT0 i hi')
    have ej : (abcCums df)[j] =
        .fv ((((abcSorted df).map (fun kv => kv.2)).take (j + 1)).sum / abcTotal df * 100) :=
      (List.getD_eq_getElem _ _ hj).symm.trans (abcCums_getD_of_ne df hT0 j hj')
    rw [ei, ej]
    have hpre := take_sum_mono _ hvals_nn (i + 1) (j + 1) (by omega)
    simp only [fle, decide_eq_true_iff]
    have hdiv := (div_le_div_iff_of_pos_right hTpos).2 hpre
    nlinarith [hdiv]
  · -- (ii) the last cumulative percent is 100 for a positive total
    intro hTpos row hrow
    have hT0 : abcTotal df ≠ 0 := ne_of_gt hTpos
    have hvne : (abcSorted df).map (fun kv => kv.2) ≠ [] := by
      intro hc
      rw [← hTsum, hc] at hTpos
      simp at hTpos
    have hlast : (abcCums df).getLast? = some (.fv 100) := by
      rw [abcCums_eq_of_ne df hT0, List.getLast?_map,
        runningFrom_getLast? _ _ (by
          intro hc
          exact hvne (List.map_eq_nil_iff.1 hc))]
      rw [zero_add, sum_map_div_mul, hTsum, div_self hT0]
      norm_num
    have h5 : ((abcOf df).map (fun r => r.cum)).getLast? = some (.fv 100) := by
      rw [hmap_cum]
      exact hlast
    rw [List.getLast?_map, hrow] at h5
    simpa using h5
  · -- (iii) categories never go back up
    suffices hcs : List.Pairwise
        (fun a b => catRank (clasificar a) ≤ catRank (clasificar b)) (abcCums df) by
      rw [← hmap_cum] at hcs
      refine ((List.pairwise_map).1 hcs).imp_of_mem ?_
      intro a b ha hb hR
      rw [(abcRows_mem _ _ _ a ha).2.2, (abcRows_mem _ _ _ b hb).2.2]
      exact hR
    rcases eq_or_ne (abcTotal df) 0 with hT0 | hT0
    · apply List.pairwise_of_forall_mem_list
      intro a ha b hb
      have ca : clasificar a = "C" := by
        rcases abcCums_zero_total df hT0 a ha with h | h <;> rw [h] <;> rfl
      have cb : clasificar b = "C" := by
        rcases abcCums_zero_total df hT0 b hb with h | h <;> rw [h] <;> rfl
      rw [ca, cb]
    · rw [List.pairwise_iff_getElem]
      intro i j hi hj hij
      have hi' : i < (abcSorted df).length := by rw [← hlen_cs]; exact hi
      have hj' : j < (abcSorted df).length := by rw [← hlen_cs]; exact hj
      have ei : (abcCums df)[i] =
          .fv ((((abcSorted df).map (fun kv => kv.2)).take (i + 1)).sum / abcTotal df * 100) :=
        (List.getD_eq_getElem _ _ hi).symm.trans (abcCums_getD_of_ne df hT0 i hi')
      have ej : (abcCums df)[j] =
          .fv ((((abcSorted df).map (fun kv => kv.2)).take (j + 1)).sum / abcTotal df * 100) :=
        (List.getD_eq_getElem _ _ hj).symm.trans (abcCums_getD_of_ne df hT0 j hj')
      rw [ei, ej, catRank_clasificar_fv, catRank_clasificar_fv]
      apply qrank_le_of_thresholds
      · intro h80
        rcases lt_or_gt_of_ne hT0 with hTneg | hTpos
        · rw [cum_le_iff_neg _ _ _ hTneg] at h80 ⊢
          refine prefix_ge_negc _ hdesc_vals _ ?_ i j (le_of_lt hij) h80
          exact div_neg_of_neg_of_pos (by linarith) (by norm_num)
        · rw [cum_le_iff_pos _ _ _ hTpos] at h80 ⊢
          refine prefix_le_posT _ hdesc_vals _ ?_ i j (le_of_lt hij) h80
          rw [hTsum, div_lt_iff₀ (by norm_num : (0 : ℚ) < 100)]
          linarith
      · intro h95
        rcases lt_or_gt_of_ne hT0 with hTneg | hTpos
        · rw [cum_le_iff_neg _ _ _ hTneg] at h95 ⊢
          refine prefix_ge_negc _ hdesc_vals _ ?_ i j (le_of_lt hij) h95
          exact div_neg_of_neg_of_pos (by linarith) (by norm_num)
        · rw [cum_le_iff_pos _ _ _ hTpos] at h95 ⊢
          refine prefix_le_posT _ hdesc_vals _ ?_ i j (le_of_lt hij) h95
          rw [hTsum, div_lt_iff₀ (by norm_num : (0 : ℚ) < 100)]
          linarith

/-- Witness for C6 amended, at dfPos (positive total, non-negative
sums): monotone cumulative column, last cumulative 100, ordered
categories. -/
theorem c6_witness :
    0 < abcTotal dfPos ∧
    List.Pairwise (fun a b => fle a.cum b.cum = true) (abcOf dfPos) ∧
    (∀ row, (abcOf dfPos).getLast? = some row → row.cum = .fv 100) ∧
    List.Pairwise (fun a b => catRank a.cat ≤ catRank b.cat) (abcOf dfPos) := by
  have hg : groupSumBy dfPos COL_PRODUCT COL_SALES =
      [(Val.vStr "P1", (10 : ℚ) + 0), (Val.vStr "P2", (5 : ℚ) + 0)] := rfl
  have hg2 : groupSumBy dfPos COL_PRODUCT COL_SALES =
      [(Val.vStr "P1", (10 : ℚ)), (Val.vStr "P2", (5 : ℚ))] := by rw [hg]; norm_num
  have hs : abcSorted dfPos = [(Val.vStr "P1", (10 : ℚ)), (Val.vStr "P2", (5 : ℚ))] := by
    rw [abcSorted, hg2]; norm_num [sortDescQ, insertDescQ]
  have htot : abcTotal dfPos = 15 := by rw [abcTotal, hs]; norm_num
  have hpos : 0 < abcTotal dfPos := by rw [htot]; norm_num
  have hp : abcPcts dfPos = [.fv (200 / 3), .fv (100 / 3)] := by
    rw [abcPcts, hs, htot]; norm_num [fdivQ, fmul100]
  have hc : abcCums dfPos = [.fv (200 / 3), .fv 100] := by
    rw [abcCums, hp]; norm_num [cumListFrom, fadd]
  have htable : abcOf dfPos =
      [⟨Val.vStr "P1", 10, .fv (200 / 3), .fv (200 / 3), "A"⟩,
       ⟨Val.vStr "P2", 5, .fv (100 / 3), .fv 100, "C"⟩] := by
    rw [abcOf, hs, hp, hc]
    norm_num [abcRows, clasificar, fle]
  have hnn : ∀ row ∈ abcOf dfPos, 0 ≤ row.sales := by
    rw [htable]
    intro row hrow
    rcases List.mem_cons.1 hrow with h | h
    · subst h; norm_num
    · rcases List.mem_cons.1 h with h1 | h1
      · subst h1; norm_num
      · cases h1
  exact ⟨hpos, (c6_amended dfPos (abcOf dfPos) rfl).1 hpos hnn,
    (c6_amended dfPos (abcOf dfPos) rfl).2.1 hpos,
    (c6_amended dfPos (abcOf dfPos) rfl).2.2⟩

-- ---------- Helper lemmas: strip is idempotent ----------

theorem dropWS_eq_self (l : List Char) (h : ∀ a ∈ l.head?, isWS a = false) :
    dropWS l = l := by
  cases l with
  | nil => rfl
  | cons x t =>
      have hx := h x rfl
      rw [dropWS, List.dropWhile_cons, hx]
      rfl

theorem dropWS_head (l : List Char) : ∀ a ∈ (dropWS l).head?, isWS a = false := by
  induction l with
  | nil => intro a ha; cases ha
  | cons x t ih =>
      intro a ha
      rw [dropWS, List.dropWhile_cons] at ha
      cases hx : isWS x
      · rw [hx] at ha
        simp only [Bool.false_eq_true, if_false, List.head?_cons, Option.mem_def,
          Option.some.injEq] at ha
        rw [← ha]
        exact hx
      · rw [hx] at ha
        simp only [if_true] at ha
        exact ih a ha

theorem dropWS_idem (l : List Char) : dropWS (dropWS l) = dropWS l :=
  dropWS_eq_self _ (dropWS_head l)

theorem trimChars_idem (l : List Char) : trimChars (trimChars l) = trimChars l := by
  rw [show trimChars l = (dropWS (dropWS l).reverse).reverse from rfl]
  rcases hy : dropWS (dropWS l).reverse with _ | ⟨a, y⟩
  · rfl
  · have hyne : dropWS (dropWS l).reverse ≠ [] := by rw [hy]; exact List.cons_ne_nil _ _
    rw [← hy]
    have hstep1 : dropWS (dropWS (dropWS l).reverse).reverse =
        (dropWS (dropWS l).reverse).reverse := by
      apply dropWS_eq_self
      intro c hc
      rw [List.head?_reverse] at hc
      have hsfx : dropWS (dropWS l).reverse <:+ (dropWS l).reverse :=
        List.dropWhile_suffix _
      obtain ⟨w, hw⟩ := hsfx
      have hlast : (dropWS (dropWS l).reverse).getLast? = ((dropWS l).reverse).getLast? := by
        conv_rhs => rw [← hw]
        exact (List.getLast?_append_of_ne_nil w hyne).symm
      rw [hlast, List.getLast?_reverse] at hc
      exact dropWS_head l c hc
    rw [show trimChars ((dropWS (dropWS l).reverse).reverse) =
        (dropWS (dropWS ((dropWS (dropWS l).reverse).reverse)).reverse).reverse from rfl]
    rw [hstep1, List.reverse_reverse, dropWS_idem]

theorem stripStr_idem (s : String) : stripStr (stripStr s) = stripStr s := by
  unfold stripStr
  rw [show ((trimChars s.toList).asString).toList = trimChars s.toList from rfl]
  rw [trimChars_idem]

-- ---------- Helper lemmas: no-op conditions for the cleaning steps ----------

theorem mapCellsIdx_eq_self (f : ℕ → Val → Val) (r : List Val)
    (h : ∀ i < r.length, f i (cellAt r i) = cellAt r i) : mapCellsIdx f 0 r = r := by
  have gen : ∀ (k : ℕ) (r : List Val),
      (∀ i < r.length, f (k + i) (cellAt r i) = cellAt r i) → mapCellsIdx f k r = r := by
    intro k r
    induction r generalizing k with
    | nil => intro _; rfl
    | cons v vs ih =>
        intro hk
        rw [mapCellsIdx]
        have h0 := hk 0 (Nat.succ_pos _)
        rw [show cellAt (v :: vs) 0 = v from rfl] at h0
        rw [Nat.add_zero] at h0
        rw [h0]
        congr 1
        apply ih (k + 1)
        intro i hi
        have := hk (i + 1) (Nat.succ_lt_succ hi)
        rw [show cellAt (v :: vs) (i + 1) = cellAt vs i from rfl] at this
        rw [show k + 1 + i = k + (i + 1) by omega]
        exact this
  exact gen 0 r (by simpa using h)

theorem dedupFirstAux_subset {α : Type} [DecidableEq α] (seen : List α) (l : List α) :
    ∀ x ∈ dedupFirstAux seen l, x ∈ l := by
  induction l generalizing seen with
  | nil => intro x hx; cases hx
  | cons y ys ih =>
      intro x hx
      rw [dedupFirstAux] at hx
      by_cases hy : y ∈ seen
      · rw [if_pos hy] at hx
        exact List.mem_cons_of_mem _ (ih seen x hx)
      · rw [if_neg hy] at hx
        rcases List.mem_cons.1 hx with h1 | h1
        · exact h1 ▸ List.mem_cons_self _ _
        · exact List.mem_cons_of_mem _ (ih (y :: seen) x h1)

theorem dedupFirst_subset {α : Type} [DecidableEq α] (l : List α) :
    ∀ x ∈ dedupFirst l, x ∈ l := dedupFirstAux_subset [] l

theorem toNumeric_eq_self (v : Val) (h : v.isNumOrNA = true) : toNumeric v = v := by
  cases v with
  | vNum q => rfl
  | vNA => rfl
  | vStr s => cases h
  | vDate d => cases h

theorem isNumOrNA_not_isStr (v : Val) (h : v.isNumOrNA = true) : v.isStr = false := by
  cases v with
  | vNum q => rfl
  | vNA => rfl
  | vStr s => cases h
  | vDate d => cases h

/-- The text-normalization step is the identity on a frame in which
every column either holds only already-stripped strings or holds no
string at all. -/
theorem trimStep_eq_self (d : DataFrame)
    (hwf : ∀ r ∈ d.rows, r.length = d.cols.length)
    (h : ∀ i < d.cols.length,
      (∀ r ∈ d.rows, ∃ s, cellAt r i = .vStr s ∧ stripStr s = s) ∨
      (∀ r ∈ d.rows, (cellAt r i).isStr = false)) :
    trimStep d = d := by
  rw [trimStep]
  have hrows : d.rows.map (mapCellsIdx
      (fun i v => if isObjectCol d i then trimCell v else v) 0) = d.rows := by
    rw [show d.rows.map (mapCellsIdx
        (fun i v => if isObjectCol d i then trimCell v else v) 0) =
        d.rows.map (fun r => mapCellsIdx
          (fun i v => if isObjectCol d i then trimCell v else v) 0 r) from rfl]
    have : ∀ r ∈ d.rows, mapCellsIdx
        (fun i v => if isObjectCol d i then trimCell v else v) 0 r = r := by
      intro r hr
      apply mapCellsIdx_eq_self
      intro i hi
      have hi' : i < d.cols.length := by rw [← hwf r hr]; exact hi
      rcases h i hi' with hstr | hnostr
      · obtain ⟨s, hcell, hstrip⟩ := hstr r hr
        rw [hcell]
        by_cases hobj : isObjectCol d i
        · rw [if_pos hobj]
          rw [show trimCell (.vStr s) = .vStr (stripStr s) from rfl, hstrip]
        · rw [if_neg hobj]
      · have hobj : isObjectCol d i = false := by
          rw [isObjectCol, List.any_eq_false]
          intro r2 hr2
          rw [hnostr r2 hr2]
          exact Bool.false_ne_true
        rw [hobj]
        simp only [Bool.false_eq_true, if_false]
    calc d.rows.map _ = d.rows.map id := List.map_congr_left this
      _ = d.rows := List.map_id _
  rw [hrows]

/-- The numeric-coercion step is the identity on a frame whose target
columns hold only numbers and missing values. -/
theorem coerceStep_eq_self (d : DataFrame)
    (h : ∀ i ∈ numTargets d.cols, ∀ r ∈ d.rows, (cellAt r i).isNumOrNA = true) :
    coerceStep d = d := by
  rw [coerceStep]
  have hrows : d.rows.map (mapCellsIdx
      (fun i v => if i ∈ numTargets d.cols then toNumeric v else v) 0) = d.rows := by
    have : ∀ r ∈ d.rows, mapCellsIdx
        (fun i v => if i ∈ numTargets d.cols then toNumeric v else v) 0 r = r := by
      intro r hr
      apply mapCellsIdx_eq_self
      intro i _
      by_cases hmem : i ∈ numTargets d.cols
      · rw [if_pos hmem]
        exact toNumeric_eq_self _ (h i hmem r hr)
      · rw [if_neg hmem]
    calc d.rows.map _ = d.rows.map id := List.map_congr_left this
      _ = d.rows := List.map_id _
  rw [hrows]

theorem deriveStep_eq_self (d : DataFrame)
    (h : ¬(COL_SALES ∉ d.cols ∧ COL_QTY ∈ d.cols ∧ COL_PRICE ∈ d.cols)) :
    deriveStep d = d := by
  rw [deriveStep, if_neg h]

theorem dropnaCol_eq_self (d : DataFrame) (c : String)
    (h : ∀ r ∈ d.rows, cellAt r (colIdx d c) ≠ Val.vNA) : dropnaCol d c = d := by
  rw [dropnaCol]
  have : d.rows.filter (fun r => cellAt r (colIdx d c) ≠ Val.vNA) = d.rows := by
    rw [List.filter_eq_self]
    intro r hr
    simpa using h r hr
  rw [this]

theorem qtyFilterStep_eq_self (d : DataFrame)
    (h : ∀ r ∈ d.rows, qtyPos (cellAt r (colIdx d COL_QTY)) = true) :
    qtyFilterStep d = d := by
  rw [qtyFilterStep]
  have : d.rows.filter (fun r => qtyPos (cellAt r (colIdx d COL_QTY))) = d.rows := by
    rw [List.filter_eq_self]
    exact h
  rw [this]

theorem toNumeric_isNumOrNA (v : Val) : (toNumeric v).isNumOrNA = true := by
  cases v with
  | vStr s =>
      rw [toNumeric]
      cases parseNumQ s <;> rfl
  | vNum q => rfl
  | vDate d => rfl
  | vNA => rfl

theorem numMul_isNumOrNA (a b : Val) : (numMul a b).isNumOrNA = true := by
  cases a <;> cases b <;> rfl

/-- Decomposition of the rows after de-duplication, trimming and
coercion: each row comes from a deduplicated row by applying the trim
function then the coercion function cellwise. -/
theorem cleanPre_cells (df : DataFrame) (hwf : df.WF) :
    ∀ r ∈ (coerceStep (trimStep (dedupStep df))).rows,
      ∃ r1 ∈ (dedupStep df).rows, r1.length = df.cols.length ∧ r.length = df.cols.length ∧
        ∀ i < df.cols.length,
          cellAt r i =
            (fun v => if i ∈ numTargets df.cols then toNumeric v else v)
              ((fun v => if isObjectCol (dedupStep df) i then trimCell v else v)
                (cellAt r1 i)) := by
  intro r hr
  obtain ⟨r2, hr2, hr2eq⟩ := List.mem_map.1 hr
  obtain ⟨r1, hr1, hr1eq⟩ := List.mem_map.1 hr2
  have hr1len : r1.length = df.cols.length := hwf.1 r1 (dedupFirst_subset _ r1 hr1)
  have hr2len : r2.length = df.cols.length := by
    rw [← hr1eq, mapCellsIdx_length, hr1len]
  refine ⟨r1, hr1, hr1len, ?_, ?_⟩
  · rw [← hr2eq, mapCellsIdx_length, hr2len]
  · intro i hi
    have e1 : cellAt r i = (fun v => if i ∈ numTargets df.cols then toNumeric v else v)
        (cellAt r2 i) := by
      rw [← hr2eq, cellAt_mapCellsIdx, if_pos (by rw [hr2len]; exact hi), Nat.zero_add]
      rfl
    have e2 : cellAt r2 i = (fun v => if isObjectCol (dedupStep df) i then trimCell v else v)
        (cellAt r1 i) := by
      rw [← hr1eq, cellAt_mapCellsIdx, if_pos (by rw [hr1len]; exact hi), Nat.zero_add]
    rw [e1, e2]

theorem numTargets_lt (cols : List String) : ∀ i ∈ numTargets cols, i < cols.length := by
  intro i hi
  rw [numTargets] at hi
  obtain ⟨c, hcf, hci⟩ := List.mem_map.1 hi
  obtain ⟨_, hcmem⟩ := List.mem_filter.1 hcf
  rw [← hci]
  exact List.indexOf_lt_length.2 (by simpa using hcmem)

theorem mem_numTargets (cols : List String) (c : String)
    (hc3 : c ∈ [COL_QTY, COL_PRICE, COL_SALES]) (hmem : c ∈ cols) :
    cols.indexOf c ∈ numTargets cols := by
  rw [numTargets]
  exact List.mem_map.2 ⟨c, List.mem_filter.2 ⟨hc3, by simpa using hmem⟩, rfl⟩

/-- Invariants of the de-duplicated, trimmed, coerced, derived frame:
unique columns of uniform row width; every column holds either only
already-stripped strings or no string at all; the numeric target
columns hold only numbers or missing; and the SALES-derivation guard
cannot fire again. -/
theorem cleanPre_inv (df : DataFrame) (hwf : df.WF) :
    (cleanPre df).cols.Nodup ∧
    (∀ r ∈ (cleanPre df).rows, r.length = (cleanPre df).cols.length) ∧
    (∀ i < (cleanPre df).cols.length,
      (∀ r ∈ (cleanPre df).rows, ∃ s, cellAt r i = .vStr s ∧ stripStr s = s) ∨
      (∀ r ∈ (cleanPre df).rows, (cellAt r i).isStr = false)) ∧
    (∀ i ∈ numTargets (cleanPre df).cols, ∀ r ∈ (cleanPre df).rows,
      (cellAt r i).isNumOrNA = true) ∧
    ¬(COL_SALES ∉ (cleanPre df).cols ∧ COL_QTY ∈ (cleanPre df).cols ∧
      COL_PRICE ∈ (cleanPre df).cols) := by
  have hd3cells := cleanPre_cells df hwf
  -- invariants of the frame before derivation
  have hlen3 : ∀ r ∈ (coerceStep (trimStep (dedupStep df))).rows, r.length = df.cols.length := by
    intro r hr
    obtain ⟨r1, _, _, hrlen, _⟩ := hd3cells r hr
    exact hrlen
  have hobj3 : ∀ i < df.cols.length,
      (∀ r ∈ (coerceStep (trimStep (dedupStep df))).rows,
        ∃ s, cellAt r i = .vStr s ∧ stripStr s = s) ∨
      (∀ r ∈ (coerceStep (trimStep (dedupStep df))).rows, (cellAt r i).isStr = false) := by
    intro i hi
    by_cases hnumt : i ∈ numTargets df.cols
    · right
      intro r hr
      obtain ⟨r1, _, _, _, hcell⟩ := hd3cells r hr
      rw [hcell i hi]
      simp only [if_pos hnumt]
      exact isNumOrNA_not_isStr _ (toNumeric_isNumOrNA _)
    · by_cases hobj : isObjectCol (dedupStep df) i = true
      · left
        intro r hr
        obtain ⟨r1, _, _, _, hcell⟩ := hd3cells r hr
        rw [hcell i hi]
        simp only [if_neg hnumt, if_pos hobj]
        exact ⟨stripStr (valToPyStr (cellAt r1 i)), rfl, stripStr_idem _⟩
      · right
        intro r hr
        obtain ⟨r1, hr1, _, _, hcell⟩ := hd3cells r hr
        rw [hcell i hi]
        simp only [if_neg hnumt, if_neg hobj]
        have hfalse : isObjectCol (dedupStep df) i = false := by
          revert hobj
          cases isObjectCol (dedupStep df) i
          · intro _; rfl
          · intro h; exact absurd rfl h
        rw [isObjectCol, List.any_eq_false] at hfalse
        have := hfalse r1 hr1
        revert this
        cases (cellAt r1 i).isStr
        · intro _; rfl
        · intro h; exact absurd rfl h
  have hnum3 : ∀ i ∈ numTargets df.cols, ∀ r ∈ (coerceStep (trimStep (dedupStep df))).rows,
      (cellAt r i).isNumOrNA = true := by
    intro i hi r hr
    obtain ⟨r1, _, _, _, hcell⟩ := hd3cells r hr
    rw [hcell i (numTargets_lt df.cols i hi)]
    simp only [if_pos hi]
    exact toNumeric_isNumOrNA _
  by_cases hDer : COL_SALES ∉ df.cols ∧ COL_QTY ∈ df.cols ∧ COL_PRICE ∈ df.cols
  · -- SALES is derived and appended
    have hPre : cleanPre df = ⟨df.cols ++ [COL_SALES],
        (coerceStep (trimStep (dedupStep df))).rows.map (fun r => r ++
          [numMul (cellAt r (colIdx (coerceStep (trimStep (dedupStep df))) COL_QTY))
                  (cellAt r (colIdx (coerceStep (trimStep (dedupStep df))) COL_PRICE))])⟩ := by
      rw [cleanPre, deriveStep,
        if_pos (show COL_SALES ∉ (coerceStep (trimStep (dedupStep df))).cols ∧
          COL_QTY ∈ (coerceStep (trimStep (dedupStep df))).cols ∧
          COL_PRICE ∈ (coerceStep (trimStep (dedupStep df))).cols from hDer)]
      rfl
    rw [hPre]
    have hlencols : (df.cols ++ [COL_SALES]).length = df.cols.length + 1 := by simp
    refine ⟨?_, ?_, ?_, ?_, ?_⟩
    · rw [List.nodup_append]
      refine ⟨hwf.2, List.nodup_singleton _, ?_⟩
      intro a ha hb
      rw [List.mem_singleton] at hb
      subst hb
      exact hDer.1 ha
    · intro r hr
      obtain ⟨r3, hr3, hr3eq⟩ := List.mem_map.1 hr
      rw [← hr3eq]
      simp only [List.length_append, List.length_singleton, hlen3 r3 hr3, hlencols]
    · intro i hi
      rw [hlencols] at hi
      rcases Nat.lt_succ_iff_lt_or_eq.1 hi with hilt | hieq
      · rcases hobj3 i hilt with hstr | hnostr
        · left
          intro r hr
          obtain ⟨r3, hr3, hr3eq⟩ := List.mem_map.1 hr
          rw [← hr3eq]
          rw [show cellAt (r3 ++ [numMul _ _]) i = (r3 ++ [numMul _ _]).getD i Val.vNA from rfl]
          rw [List.getD_append _ _ _ _ (by rw [hlen3 r3 hr3]; exact hilt)]
          exact hstr r3 hr3
        · right
          intro r hr
          obtain ⟨r3, hr3, hr3eq⟩ := List.mem_map.1 hr
          rw [← hr3eq]
          rw [show cellAt (r3 ++ [numMul _ _]) i = (r3 ++ [numMul _ _]).getD i Val.vNA from rfl]
          rw [List.getD_append _ _ _ _ (by rw [hlen3 r3 hr3]; exact hilt)]
          exact hnostr r3 hr3
      · subst hieq
        right
        intro r hr
        obtain ⟨r3, hr3, hr3eq⟩ := List.mem_map.1 hr
        rw [← hr3eq]
        rw [show cellAt (r3 ++ [numMul _ _]) df.cols.length =
            (r3 ++ [numMul _ _]).getD df.cols.length Val.vNA from rfl]
        rw [List.getD_append_right _ _ _ _ (le_of_eq (hlen3 r3 hr3))]
        rw [hlen3 r3 hr3, Nat.sub_self]
        exact isNumOrNA_not_isStr _ (numMul_isNumOrNA _ _)
    · intro i hi r hr
      rw [numTargets] at hi
      obtain ⟨c, hcf, hci⟩ := List.mem_map.1 hi
      obtain ⟨hc3, hcmem⟩ := List.mem_filter.1 hcf
      obtain ⟨r3, hr3, hr3eq⟩ := List.mem_map.1 hr
      by_cases hcs : c = COL_SALES
      · subst hcs
        have hidx : (df.cols ++ [COL_SALES]).indexOf COL_SALES = df.cols.length := by
          rw [List.indexOf_append_of_not_mem hDer.1]
          simp
        rw [← hci, hidx, ← hr3eq]
        rw [show cellAt (r3 ++ [numMul _ _]) df.cols.length =
            (r3 ++ [numMul _ _]).getD df.cols.length Val.vNA from rfl]
        rw [List.getD_append_right _ _ _ _ (le_of_eq (hlen3 r3 hr3))]
        rw [hlen3 r3 hr3, Nat.sub_self]
        exact numMul_isNumOrNA _ _
      · have hcdf : c ∈ df.cols := by
          have : c ∈ df.cols ++ [COL_SALES] := by simpa using hcmem
          rcases List.mem_append.1 this with h1 | h1
          · exact h1
          · rw [List.mem_singleton] at h1
            exact absurd h1 hcs
        have hidx : (df.cols ++ [COL_SALES]).indexOf c = df.cols.indexOf c :=
          List.indexOf_append_of_mem hcdf
        have hlt : df.cols.indexOf c < df.cols.length := List.indexOf_lt_length.2 hcdf
        rw [← hci, hidx, ← hr3eq]
        rw [show cellAt (r3 ++ [numMul _ _]) (df.cols.indexOf c) =
            (r3 ++ [numMul _ _]).getD (df.cols.indexOf c) Val.vNA from rfl]
        rw [List.getD_append _ _ _ _ (by rw [hlen3 r3 hr3]; exact hlt)]
        exact hnum3 _ (mem_numTargets df.cols c hc3 hcdf) r3 hr3
    · intro hcontra
      exact hcontra.1 (List.mem_append_right _ (List.mem_singleton_self _))
  · -- the derivation guard fails and the pre frame is the coerced frame
    have hPre : cleanPre df = coerceStep (trimStep (dedupStep df)) :=
      deriveStep_eq_self _ hDer
    rw [hPre]
    exact ⟨hwf.2, hlen3, hobj3, hnum3, hDer⟩

/-- Invariants of a successful cleaning run, inherited by the cleaned
output frame: those of `cleanPre_inv` plus the effect of the two
filters (no missing product code, positive quantities). -/
theorem clean_output_inv (df : DataFrame) (res : CleanResult) (hwf : df.WF)
    (hc : clean_data df = .ok res) :
    res.df.cols.Nodup ∧
    (∀ r ∈ res.df.rows, r.length = res.df.cols.length) ∧
    COL_PRODUCT ∈ res.df.cols ∧
    (∀ i < res.df.cols.length,
      (∀ r ∈ res.df.rows, ∃ s, cellAt r i = .vStr s ∧ stripStr s = s) ∨
      (∀ r ∈ res.df.rows, (cellAt r i).isStr = false)) ∧
    (∀ i ∈ numTargets res.df.cols, ∀ r ∈ res.df.rows, (cellAt r i).isNumOrNA = true) ∧
    (∀ r ∈ res.df.rows, cellAt r (colIdx res.df COL_PRODUCT) ≠ Val.vNA) ∧
    (COL_QTY ∈ res.df.cols → ∀ r ∈ res.df.rows,
      qtyPos (cellAt r (colIdx res.df COL_QTY)) = true) ∧
    ¬(COL_SALES ∉ res.df.cols ∧ COL_QTY ∈ res.df.cols ∧ COL_PRICE ∈ res.df.cols) := by
  obtain ⟨hnd, hlen, hobj, hnum, hder⟩ := cleanPre_inv df hwf
  have hP : COL_PRODUCT ∈ (cleanPre df).cols := by
    by_contra h
    rw [clean_data, if_neg h] at hc
    cases hc
  have hresdf : res.df = cleanFiltered df := by
    rw [clean_data, if_pos hP] at hc
    rw [← Except.ok.inj hc]
  have hFcols : (cleanFiltered df).cols = (cleanPre df).cols := by
    rw [cleanFiltered]
    by_cases hq : COL_QTY ∈ (dropnaCol (cleanPre df) COL_PRODUCT).cols
    · rw [if_pos hq]; rfl
    · rw [if_neg hq]; rfl
  have hFsubD : ∀ r ∈ (cleanFiltered df).rows, r ∈ (dropnaCol (cleanPre df) COL_PRODUCT).rows := by
    intro r hr
    rw [cleanFiltered] at hr
    by_cases hq : COL_QTY ∈ (dropnaCol (cleanPre df) COL_PRODUCT).cols
    · rw [if_pos hq] at hr
      exact List.mem_of_mem_filter hr
    · rw [if_neg hq] at hr
      exact hr
  have hFsub : ∀ r ∈ (cleanFiltered df).rows, r ∈ (cleanPre df).rows :=
    fun r hr => List.mem_of_mem_filter (hFsubD r hr)
  rw [hresdf, hFcols]
  refine ⟨hnd, ?_, hP, ?_, ?_, ?_, ?_, ?_⟩
  · intro r hr
    exact hlen r (hFsub r hr)
  · intro i hi
    rcases hobj i hi with h | h
    · exact Or.inl (fun r hr => h r (hFsub r hr))
    · exact Or.inr (fun r hr => h r (hFsub r hr))
  · intro i hi r hr
    exact hnum i hi r (hFsub r hr)
  · intro r hr
    have := (List.mem_filter.1 (hFsubD r hr)).2
    have hcol : colIdx (cleanFiltered df) COL_PRODUCT = colIdx (cleanPre df) COL_PRODUCT := by
      rw [colIdx, colIdx, hFcols]
    rw [hcol]
    simpa using this
  · intro hq r hr
    rw [cleanFiltered] at hr
    have hq2 : COL_QTY ∈ (dropnaCol (cleanPre df) COL_PRODUCT).cols := by
      rw [show (dropnaCol (cleanPre df) COL_PRODUCT).cols = (cleanPre df).cols from rfl]
      exact hq
    rw [if_pos hq2] at hr
    have := (List.mem_filter.1 hr).2
    have hcol : colIdx (cleanFiltered df) COL_QTY =
        colIdx (dropnaCol (cleanPre df) COL_PRODUCT) COL_QTY := by
      rw [colIdx, colIdx, hFcols]
      rfl
    rw [hcol]
    simpa using this
  · exact hder

/-- C5 (amended).  Cleaning is not idempotent on the frame, but a
second run of `clean_data` on the output of a successful first run
only removes the exact duplicates that trimming may have created: it
reports zero invalid rows, changes no cell, and returns the
de-duplicated output frame with the duplicate count. -/
theorem c5_amended (df : DataFrame) (res : CleanResult) (hwf : df.WF)
    (hc : clean_data df = .ok res) :
    clean_data res.df = .ok ⟨⟨res.df.cols, dedupFirst res.df.rows⟩,
      res.df.rows.length - (dedupFirst res.df.rows).length, 0⟩ := by
  obtain ⟨hnd, hlen, hProd, hobj, hnum, hprodNA, hqty, hder⟩ := clean_output_inv df res hwf hc
  have hDsub : ∀ r ∈ (dedupStep res.df).rows, r ∈ res.df.rows := dedupFirst_subset res.df.rows
  have h1 : trimStep (dedupStep res.df) = dedupStep res.df := by
    refine trimStep_eq_self _ ?_ ?_
    · intro r hr
      exact hlen r (hDsub r hr)
    · intro i hi
      rcases hobj i hi with h | h
      · exact Or.inl (fun r hr => h r (hDsub r hr))
      · exact Or.inr (fun r hr => h r (hDsub r hr))
  have h2 : coerceStep (dedupStep res.df) = dedupStep res.df := by
    refine coerceStep_eq_self _ ?_
    intro i hi r hr
    exact hnum i hi r (hDsub r hr)
  have h3 : deriveStep (dedupStep res.df) = dedupStep res.df := deriveStep_eq_self _ hder
  have hPre : cleanPre res.df = dedupStep res.df := by
    rw [cleanPre, h1, h2, h3]
  have h4 : dropnaCol (dedupStep res.df) COL_PRODUCT = dedupStep res.df := by
    refine dropnaCol_eq_self _ _ ?_
    intro r hr
    exact hprodNA r (hDsub r hr)
  have hFilt : cleanFiltered res.df = dedupStep res.df := by
    rw [cleanFiltered, hPre, h4]
    by_cases hq : COL_QTY ∈ res.df.cols
    · rw [if_pos (show COL_QTY ∈ (dedupStep res.df).cols from hq)]
      refine qtyFilterStep_eq_self _ ?_
      intro r hr
      exact hqty hq r (hDsub r hr)
    · rw [if_neg (show COL_QTY ∉ (dedupStep res.df).cols from hq)]
  have hPmem : COL_PRODUCT ∈ (cleanPre res.df).cols := by
    rw [hPre]
    exact hProd
  rw [clean_data, if_pos hPmem, hFilt, hPre, Nat.sub_self]
  rfl

/-- Witness for C5 (amended) at the concrete frame dfC5: the first
clean trims a trailing space, and the second run only removes the
duplicate row this created. -/
theorem c5_witness :
    dfC5.WF ∧ clean_data dfC5 = .ok ⟨dfC5once, 0, 0⟩ ∧
    clean_data dfC5once = .ok ⟨⟨dfC5once.cols, dedupFirst dfC5once.rows⟩,
      dfC5once.rows.length - (dedupFirst dfC5once.rows).length, 0⟩ :=
  ⟨by decide, rfl, c5_amended dfC5 ⟨dfC5once, 0, 0⟩ (by decide) rfl⟩

end SalesPipeline
